import Mathlib

/-!
# Verification of the calvin-base csparser code generator

Shallow embedding of `calvin/csparser/codegen.py`: the tree-rewriting
pipeline (Expander, ImplicitPortRewrite, Flatten, port-map resolution) and
the manifest emitter (`AppInfo`), together with the `Finder` query utility
and the `csinstaller` entry point.  The AST node model follows the data
model of the specification (`astnode.py` itself is not part of the sources;
its node kinds, attributes and child shapes are taken from the spec's data
model table).
-/

set_option maxHeartbeats 1000000
set_option linter.unnecessarySimpa false

namespace CalvinCS

/-- Primitive values carried by `ast.Value` nodes (number, string, bool, null). -/
inductive PVal where
  | int (n : Int)
  | str (s : String)
  | bool (b : Bool)
  | null
deriving DecidableEq, Repr

/-- The port family: `ast.Port` and its four subclasses. -/
inductive PortKind where
  | plain
  | inP
  | outP
  | internalIn
  | internalOut
deriving DecidableEq, Repr

/-- AST nodes, one constructor per node kind of the data model.
`block` carries `ns` (the optional namespace), the `args` mapping and the
ordered child list; `namedArg` stores the `Id` child's identifier directly
(that child is only ever read, never replaced); `link` stores its two
positional children (`outport`, `inport`); `constant` stores the `Id`
child's identifier and the value child. -/
inductive Node where
  | block (ns : Option String) (args : List (String × Node)) (children : List Node)
  | component (name : String) (argNames : List String) (children : List Node)
  | assignment (ident : String) (actorType : String) (children : List Node)
  | namedArg (argId : String) (value : Node)
  | idRef (ident : String)
  | pval (value : PVal)
  | constant (ident : String) (value : Node)
  | link (outp : Node) (inp : Node)
  | port (kind : PortKind) (actor : Option String) (portName : String)
  | implicitPort (arg : Node)
deriving Repr

/-- Python-dict style insert into an association list: replace the first
binding of the key, or append a fresh binding. -/
def dinsert (k : String) (v : α) : List (String × α) → List (String × α)
  | [] => [(k, v)]
  | (k', v') :: rest => if k' = k then (k, v) :: rest else (k', v') :: dinsert k v rest

/-- Python-dict style lookup in an association list. -/
def dlookup (k : String) : List (String × α) → Option α
  | [] => none
  | (k', v') :: rest => if k' = k then some v' else dlookup k rest

/-- Python `key in dict`. -/
def dmem (k : String) (l : List (String × α)) : Bool :=
  (dlookup k l).isSome

namespace Expander

/-- `{x.children[0].ident: x.children[1] for x in args}` — the argument
mapping built from an assignment's NamedArg children (later keys override). -/
def argsOf (children : List Node) : List (String × Node) :=
  children.foldl
    (fun m c =>
      match c with
      | .namedArg a v => dinsert a v m
      | _ => m) []

/-- `Expander.visit` (codegen.py lines 93-121), with explicit fuel bounding
the depth of the Python call stack (each visitor level consumes one unit);
`none` models recursion past any stack bound — the source has no recursion
cap at all.  An assignment whose `actor_type` is a key of the component map
is replaced by a clone of the component's body block with
`namespace := node.ident` and `args` built from the assignment's NamedArg
children, and the visitor recurses into the new block; any other assignment
is returned untouched (the source returns before visiting its children).
All other non-leaf nodes recurse into their children: see `expandStep` and
`expandNode` below.

`mapVisit` is `map(self.visit, node.children[:])`, with `visit` the current
level's visitor; any failing child visit propagates. -/
def mapVisit (visit : Node → Option Node) : List Node → Option (List Node)
  | [] => some []
  | n :: rest => do pure ((← visit n) :: (← mapVisit visit rest))

/-- One level of `Expander.visit` dispatch, `visit` being the next call
level. -/
def expandStep (comps : List (String × Node)) (visit : Node → Option Node) :
    Node → Option Node
  | .assignment i t ch =>
    match dlookup t comps with
    | none => some (.assignment i t ch)
    | some comp =>
      match comp with
      | .component _ _ (.block _ _ bch :: _) =>
        visit (.block (some i) (argsOf ch) bch)
      | _ => none
  | .block ns args ch => (mapVisit visit ch).map (fun ch' => .block ns args ch')
  | .component nm a ch => (mapVisit visit ch).map (fun ch' => .component nm a ch')
  | .link o i => do pure (.link (← visit o) (← visit i))
  | .constant nm v => (visit v).map (fun v' => .constant nm v')
  | .namedArg a v => (visit v).map (fun v' => .namedArg a v')
  | .implicitPort v => (visit v).map (fun v' => .implicitPort v')
  | .idRef s => some (.idRef s)
  | .pval v => some (.pval v)
  | .port k a p => some (.port k a p)

def expandNode (comps : List (String × Node)) : Nat → Node → Option Node
  | 0 => fun _ => none
  | fuel + 1 => expandStep comps (expandNode comps fuel)

end Expander

namespace ImplicitPortRewrite

/-- `const_name = '_literal_const_' + str(self.counter)` (codegen.py line 77). -/
def constName (k : Nat) : String := "_literal_const_" ++ Nat.repr k

/-- The `visit(ImplicitPort)` handler (codegen.py lines 72-83) applied to one
link end.  An `ImplicitPort` is replaced inside its Link parent by
`ast.Port(const_name, 'token')`, and an assignment
`Assignment(const_name, 'std.Constant', [data=<literal>, n=-1])` is
produced for the Block grandparent; the counter is bumped before use.
Returns (new end, synthesized assignments, synthesized names, counter). -/
def rewriteEnd (counter : Nat) : Node → Node × List Node × List String × Nat
  | .implicitPort v =>
    let c := counter + 1
    let args := [Node.namedArg "data" v, Node.namedArg "n" (.pval (.int (-1)))]
    (.port .plain (some (constName c)) "token",
     [.assignment (constName c) "std.Constant" args], [constName c], c)
  | n => (n, [], [], counter)

mutual
/-- The ImplicitPortRewrite traversal.  Children of a Block are visited in
order (pre-order); synthesized constant assignments are appended to the
Block that contains the rewritten Link (`add_child` appends after the
existing children).  Besides the rewritten node it returns the list of
synthesized constant names in generation order and the final counter. -/
def rewriteNode (c : Nat) : Node → Node × List String × Nat
  | .block ns args ch =>
    let r := rewriteBlockChildren c ch
    (.block ns args (r.1 ++ r.2.1), r.2.2.1, r.2.2.2)
  | .component n a ch =>
    let r := rewriteList c ch
    (.component n a r.1, r.2)
  | .assignment i t ch =>
    let r := rewriteList c ch
    (.assignment i t r.1, r.2)
  | .namedArg a v =>
    let r := rewriteNode c v
    (.namedArg a r.1, r.2)
  | .constant k v =>
    let r := rewriteNode c v
    (.constant k r.1, r.2)
  | .link o i =>
    let ro := rewriteNode c o
    let ri := rewriteNode ro.2.2 i
    (.link ro.1 ri.1, ro.2.1 ++ ri.2.1, ri.2.2)
  | .implicitPort v =>
    let r := rewriteNode c v
    (.implicitPort r.1, r.2)
  | .idRef s => (.idRef s, [], c)
  | .pval v => (.pval v, [], c)
  | .port k a p => (.port k a p, [], c)

/-- Children of a Block: Link children have their ends rewritten (outport
then inport, matching child order) and contribute synthesized assignments
to this block; other children recurse.  Returns (rewritten children,
assignments to append, names, counter). -/
def rewriteBlockChildren (c : Nat) :
    List Node → List Node × List Node × List String × Nat
  | [] => ([], [], [], c)
  | .link o i :: rest =>
    let ro := rewriteEnd c o
    let ri := rewriteEnd ro.2.2.2 i
    let r := rewriteBlockChildren ri.2.2.2 rest
    (.link ro.1 ri.1 :: r.1, ro.2.1 ++ ri.2.1 ++ r.2.1,
     ro.2.2.1 ++ ri.2.2.1 ++ r.2.2.1, r.2.2.2)
  | n :: rest =>
    let rn := rewriteNode c n
    let r := rewriteBlockChildren rn.2.2 rest
    (rn.1 :: r.1, r.2.1, rn.2.1 ++ r.2.2.1, r.2.2.2)

def rewriteList (c : Nat) : List Node → List Node × List String × Nat
  | [] => ([], [], c)
  | n :: rest =>
    let rn := rewriteNode c n
    let r := rewriteList rn.2.2 rest
    (rn.1 :: r.1, rn.2.1 ++ r.2.1, r.2.2)
end

mutual
/-- Number of ImplicitPort nodes in a subtree. -/
def countImpl : Node → Nat
  | .block _ _ ch => countImplList ch
  | .component _ _ ch => countImplList ch
  | .assignment _ _ ch => countImplList ch
  | .namedArg _ v => countImpl v
  | .constant _ v => countImpl v
  | .link o i => countImpl o + countImpl i
  | .implicitPort v => countImpl v + 1
  | .idRef _ => 0
  | .pval _ => 0
  | .port _ _ _ => 0

def countImplList : List Node → Nat
  | [] => 0
  | n :: rest => countImpl n + countImplList rest
end

end ImplicitPortRewrite

namespace Flatten

/-- The Port rewrite (codegen.py lines 174-179): with `actor` set the new
actor is `':'.join(stack + [actor])`, otherwise `':'.join(stack)`. -/
def portActor (stack : List String) : Option String → String
  | some a => String.intercalate ":" (stack ++ [a])
  | none => String.intercalate ":" stack

/-- Dispatch of `visit` on a Link child: the Port handler fires on any node
of the port family, everything else is left as is. -/
def flattenEnd (stack : List String) : Node → Node
  | .port k a p => .port k (some (portActor stack a)) p
  | n => n

/-- The `visit(NamedArg)` handler (codegen.py lines 156-171): if the value
child is an Id, look its identifier up first in the enclosing block's
`args`, then in the constants map; on success replace the value child with
the resolved node (the very node from the map — no clone); otherwise print
a missing-symbol warning and leave the child unchanged.  The second
component records the warned-about symbol. -/
def substNamedArg (bargs consts : List (String × Node)) : Node → Node × List String
  | .namedArg a (.idRef key) =>
    match dlookup key bargs with
    | some v => (.namedArg a v, [])
    | none =>
      match dlookup key consts with
      | some v => (.namedArg a v, [])
      | none => (.namedArg a (.idRef key), [key])
  | n => (n, [])

/-- Step (a) of `visit(Block)` (codegen.py lines 183-192): each `args`
entry whose value is an Id is looked up in the parent block's `args`;
missing symbols are warned about and left unchanged. -/
def resolveBlockArgs (parentArgs : List (String × Node)) :
    List (String × Node) → List (String × Node) × List String
  | [] => ([], [])
  | (k, .idRef pk) :: rest =>
    let r := resolveBlockArgs parentArgs rest
    match dlookup pk parentArgs with
    | some v => ((k, v) :: r.1, r.2)
    | none => ((k, .idRef pk) :: r.1, pk :: r.2)
  | (k, v) :: rest =>
    let r := resolveBlockArgs parentArgs rest
    ((k, v) :: r.1, r.2)

/-- Substitution over an Assignment's children: NamedArg children get the
`visit(NamedArg)` treatment against the enclosing block's args and the
constants map; the handler does not descend further. -/
def flattenArgs (bargs consts : List (String × Node)) :
    List Node → List Node × List String
  | [] => ([], [])
  | n :: rest =>
    let r1 := substNamedArg bargs consts n
    let r2 := flattenArgs bargs consts rest
    (r1.1 :: r2.1, r1.2 ++ r2.2)

mutual
/-- The Flatten visitor (codegen.py lines 124-202), written with the
mutable visitor state made explicit: `stack` is the namespace stack,
`bargs` the `args` of the enclosing block (read through the parent
back-references in the source), `consts` the constants map threaded in
traversal order.  A visited Block resolves its own `args` against the
enclosing block's, pushes its namespace, flattens its children and splices
them into the parent (the Block itself disappears); a Constant records its
binding and stays in the tree; an Assignment gets the qualified ident
`':'.join(stack + [ident])` and its NamedArgs substituted; Ports are
qualified.  Result: (nodes spliced into the parent, constants, warnings). -/
def flattenNode (stack : List String) (bargs consts : List (String × Node)) :
    Node → List Node × List (String × Node) × List String
  | .constant k v => ([.constant k v], dinsert k v consts, [])
  | .assignment i t ch =>
    let r := flattenArgs bargs consts ch
    ([.assignment (String.intercalate ":" (stack ++ [i])) t r.1], consts, r.2)
  | .port k a p => ([flattenEnd stack (.port k a p)], consts, [])
  | .link o i => ([.link (flattenEnd stack o) (flattenEnd stack i)], consts, [])
  | .block ns args ch =>
    let ra := resolveBlockArgs bargs args
    let r := flattenList (stack ++ ns.toList) ra.1 consts ch
    (r.1, r.2.1, ra.2 ++ r.2.2)
  | .component n a ch =>
    let r := flattenList stack bargs consts ch
    ([.component n a r.1], r.2)
  | .namedArg a v => ([.namedArg a v], consts, [])
  | .implicitPort v => ([.implicitPort v], consts, [])
  | .idRef s => ([.idRef s], consts, [])
  | .pval v => ([.pval v], consts, [])

/-- `map(self.visit, node.children[:])` for Flatten: children in order,
spliced results concatenated, constants threaded left to right. -/
def flattenList (stack : List String) (bargs consts : List (String × Node)) :
    List Node → List Node × List (String × Node) × List String
  | [] => ([], consts, [])
  | n :: rest =>
    let r1 := flattenNode stack bargs consts n
    let r2 := flattenList stack bargs r1.2.1 rest
    (r1.1 ++ r2.1, r2.2.1, r1.2.2 ++ r2.2.2)
end

end Flatten

namespace Finder

/-- The ordered child list of a node (the data model's child table;
`NamedArg` and `Constant` expose their Id child first). -/
def childrenOf : Node → List Node
  | .block _ _ ch => ch
  | .component _ _ ch => ch
  | .assignment _ _ ch => ch
  | .namedArg a v => [.idRef a, v]
  | .constant k v => [.idRef k, v]
  | .link o i => [o, i]
  | .implicitPort v => [v]
  | .idRef _ => []
  | .pval _ => []
  | .port _ _ _ => []

/-- `Finder.visit` (codegen.py lines 29-36): record the node if it matches,
then recurse into the children while `depth < maxdepth`.  The first
argument is the remaining depth budget `maxdepth - depth`, positive exactly
when `depth < maxdepth`; matches are gathered in pre-order. -/
def findStep (pred : Node → Bool) (go : Node → List Node) (n : Node) : List Node :=
  (if pred n then [n] else []) ++
    (if (childrenOf n).isEmpty then [] else (childrenOf n).flatMap go)

def findNode (pred : Node → Bool) : Nat → Node → List Node
  | 0 => fun n => if pred n then [n] else []
  | rem + 1 => findStep pred (findNode pred rem)

/-- `find_all` (codegen.py lines 38-49) with a kind predicate; the caller
passes `maxdepth` (1024 when the source omits it); the walk starts at
depth 0, so the budget at the root is the full `maxdepth`. -/
def find_all (pred : Node → Bool) (root : Node) (maxdepth : Nat) : List Node :=
  findNode pred maxdepth root

end Finder

namespace PortMap

/-!
The port-map resolution of `CodeGen.run` (codegen.py lines 315-330).  At
this point the tree is flat: the root block's children are the only place
Links occur, so the source's whole-tree `query` calls amount to scans over
that child list; Python object references into the mutated tree are
rendered as indices into it (child positions are stable during this phase:
the two splice loops only reassign Link ends, never insert or remove
children).
-/

/-- `node.matches(kind, {'actor': a, 'port': p})` for a port query. -/
def endMatches (k : PortKind) (a : Option String) (p : String) : Node → Bool
  | .port k' a' p' => k' = k && a' = a && p' = p
  | _ => false

/-- Collect the `(actor, port, parent-link index)` of every port of kind
`k` occurring in a Link end, in pre-order (the order `find_all` yields). -/
def collectEnds (k : PortKind) (ch : List Node) : List (Option String × String × Nat) :=
  (ch.enum).flatMap fun ic =>
    match ic.2 with
    | .link o i =>
      (match o with
       | .port k' a p => if k' = k then [(a, p, ic.1)] else []
       | _ => []) ++
      (match i with
       | .port k' a p => if k' = k then [(a, p, ic.1)] else []
       | _ => [])
    | _ => []

/-- One iteration of the first splice loop (codegen.py lines 317-321): for
the recorded InternalOutPort, every Link holding an InPort with the same
`(actor, port)` gets its inport replaced by a clone of the recorded
port's own Link's current inport. -/
def spliceInternalOut (ch : List Node) (t : Option String × String × Nat) : List Node :=
  match ch.get? t.2.2 with
  | some (.link _ srcInp) =>
    ch.map fun c =>
      match c with
      | .link o i =>
        if endMatches .inP t.1 t.2.1 o || endMatches .inP t.1 t.2.1 i then
          .link o srcInp
        else .link o i
      | c => c
  | _ => ch

/-- One iteration of the second splice loop (codegen.py lines 323-327),
symmetric: OutPorts matching a recorded InternalInPort get their Link's
outport replaced by the recorded port's Link's current outport. -/
def spliceInternalIn (ch : List Node) (t : Option String × String × Nat) : List Node :=
  match ch.get? t.2.2 with
  | some (.link srcOutp _) =>
    ch.map fun c =>
      match c with
      | .link o i =>
        if endMatches .outP t.1 t.2.1 o || endMatches .outP t.1 t.2.1 i then
          .link srcOutp i
        else .link o i
      | c => c
  | _ => ch

def isInternal : Node → Bool
  | .port .internalIn _ _ => true
  | .port .internalOut _ _ => true
  | _ => false

/-- A Link one of whose ends is still an internal-port marker. -/
def linkHasInternal : Node → Bool
  | .link o i => isInternal o || isInternal i
  | _ => false

/-- The whole resolution phase: the two splice loops (each over the ports
captured before the loop starts, re-reading the current tree at every
step, as the source's re-issued queries do), then the deletion sweep that
removes the parent Link of every remaining internal port. -/
def resolve (ch : List Node) : List Node :=
  let ch1 := (collectEnds .internalOut ch).foldl spliceInternalOut ch
  let ch2 := (collectEnds .internalIn ch1).foldl spliceInternalIn ch1
  ch2.filter fun c => !linkHasInternal c

end PortMap

namespace AppInfo

/-- An actor class as delivered by the actor store (spec §6). -/
structure ActorClass where
  inport_names : List String
  outport_names : List String

/-- The descriptor handed to `GlobalStore.actor_signature` (codegen.py
lines 7-13). -/
structure SignatureDesc where
  is_primitive : Bool
  actor_type : String
  inports : List String
  outports : List String

/-- Modelled from the spec: the injected actor-store collaborator
(`calvin.actorstore.store` is outside the sources).  `lookup` returns
`(found, is_actor, actor_class)`; a failed lookup carries no class.
`actor_signature` is the opaque signature hash. -/
structure Store where
  lookup : String → Bool × Bool × Option ActorClass
  actor_signature : SignatureDesc → String

/-- `_create_signature` (codegen.py lines 7-13).  The source reads
`actor_class.inport_names` without guarding against a failed lookup;
`none` models the AttributeError raised when the class is missing. -/
def create_signature (store : Store) (actor_class : Option ActorClass)
    (actor_type : String) : Option String :=
  match actor_class with
  | none => none
  | some c => some (store.actor_signature ⟨true, actor_type, c.inport_names, c.outport_names⟩)

/-- `arg_val.value`: reading the `value` attribute succeeds only on a Value
node (`none` models the AttributeError on e.g. an unsubstituted Id). -/
def getValueAttr : Node → Option PVal
  | .pval v => some v
  | _ => none

/-- Reading `.actor` and `.port` of a Link end. -/
def portAttrs : Node → Option (Option String × String)
  | .port _ a p => some (a, p)
  | _ => none

/-- Python `str` of the optional actor attribute inside `"{}:{}.{}".format`. -/
def actorStr : Option String → String
  | some a => a
  | none => "None"

/-- The manifest under construction (`self.app_info`, codegen.py 210-215);
`valid` is set to `True` at construction and never written again. -/
structure AppManifest where
  name : String
  actors : List (String × (String × List (String × PVal) × String))
  connections : List (String × List String)
  valid : Bool

/-- `setdefault(key, []).append(value)` on the connections multimap. -/
def mappend (k v : String) : List (String × List String) → List (String × List String)
  | [] => [(k, [v])]
  | (k', vs) :: rest =>
    if k' = k then (k', vs ++ [v]) :: rest else (k', vs) :: mappend k v rest

/-- `AppInfo.visit(Assignment)` (codegen.py lines 226-240): the store is
consulted, the `found` flag is ignored, args are collected from the
NamedArg children's `value` attributes, and the actor entry is recorded
under `"{name}:{ident}"`.  `none` models an AttributeError escaping. -/
def visitAssignment (store : Store) (m : AppManifest) (i t : String)
    (ch : List Node) : Option AppManifest := do
  let key := m.name ++ ":" ++ i
  let args ← ch.foldlM
    (fun acc c =>
      match c with
      | .namedArg a v => do pure (dinsert a (← getValueAttr v) acc)
      | _ => pure acc) []
  let lk := store.lookup t
  let sig ← create_signature store lk.2.2 t
  pure { m with actors := dinsert key (t, args, sig) m.actors }

/-- `AppInfo.visit(Link)` (codegen.py lines 242-247). -/
def visitLink (m : AppManifest) (o i : Node) : Option AppManifest := do
  let oa ← portAttrs o
  let ia ← portAttrs i
  let key := m.name ++ ":" ++ actorStr oa.1 ++ "." ++ oa.2
  let value := m.name ++ ":" ++ actorStr ia.1 ++ "." ++ ia.2
  pure { m with connections := mappend key value m.connections }

mutual
/-- The AppInfo traversal: Assignments and Links are emitted; other
non-leaf nodes recurse into their children (leaf children are no-ops and
are skipped directly). -/
def appVisit (store : Store) (m : AppManifest) : Node → Option AppManifest
  | .assignment i t ch => visitAssignment store m i t ch
  | .link o i => visitLink m o i
  | .block _ _ ch => appVisitList store m ch
  | .component _ _ ch => appVisitList store m ch
  | .namedArg _ v => appVisit store m v
  | .constant _ v => appVisit store m v
  | .implicitPort v => appVisit store m v
  | .idRef _ => some m
  | .pval _ => some m
  | .port _ _ _ => some m

def appVisitList (store : Store) (m : AppManifest) : List Node → Option AppManifest
  | [] => some m
  | n :: rest => do appVisitList store (← appVisit store m n) rest
end

/-- `AppInfo.__init__` + the generation walk (codegen.py 205-247, 337-339). -/
def run (store : Store) (script_name : String) (tree : Node) : Option AppManifest :=
  appVisit store ⟨script_name, [], [], true⟩ tree

end AppInfo

namespace CodeGen

def isComponent : Node → Bool
  | .component _ _ _ => true
  | _ => false

/-- `query(root, kind=Component, maxdepth=1)` followed by
`local_components[c.name] = c` (codegen.py lines 286-288). -/
def collectComponents (root : Node) : List (String × Node) :=
  (Finder.find_all isComponent root 1).foldl
    (fun m c =>
      match c with
      | .component n _ _ => dinsert n c m
      | _ => m) []

/-- `comp.delete()` over the collected components: every top-level
Component child is detached (codegen.py lines 293-294). -/
def dropTopComponents : Node → Node
  | .block ns args ch => .block ns args (ch.filter fun c => !isComponent c)
  | n => n

/-- The tree-rewriting part of `CodeGen.run` (codegen.py lines 268-330):
component collection, expansion (with fuel for the unbounded recursion),
deletion of the collected definitions, implicit-port rewrite, flattening
(the root block itself stays, holding the spliced children — the spec
keeps the tree rooted at the top block), then port-map resolution.
Returns the final tree and the warnings printed by Flatten. -/
def pipeline (fuel : Nat) (root : Node) : Option (Node × List String) := do
  let cmap := collectComponents root
  let root1 ← Expander.expandNode cmap fuel root
  let root2 := dropTopComponents root1
  let root3 := (ImplicitPortRewrite.rewriteNode 0 root2).1
  match root3 with
  | .block ns args ch =>
    let fr := Flatten.flattenList ns.toList args [] ch
    pure (.block ns args (PortMap.resolve fr.1), fr.2.2)
  | n => pure (n, [])

/-- `CodeGen.run` followed by the AppInfo walk: the full compilation,
returning the final tree, the manifest and the warnings. -/
def run (store : AppInfo.Store) (script_name : String) (fuel : Nat)
    (root : Node) : Option (Node × AppInfo.AppManifest × List String) := do
  let (tree, warns) ← pipeline fuel root
  let m ← AppInfo.run store script_name tree
  pure (tree, m, warns)

/-- Modelled from the spec: `CodeGen.export_components` is not in the
sources (only its caller `csinstaller.get_components` is).  Per the spec it
is a secondary entry point `export_components(ast_root) → (components,
issues)` returning the top-level component definitions without inlining;
top-level collection is the `kind=Component, maxdepth=1` query. -/
def export_components (root : Node) : List Node × List String :=
  (Finder.find_all isComponent root 1, [])

end CodeGen

namespace RefModel

/-!
A rendering of `Flatten.visit(NamedArg)` (codegen.py lines 156-171) that
makes Python object identity explicit, for the aliasing question: nodes
live in a heap addressed by object ids, and both the enclosing block's
`args` and the constants map bind names to object ids.  The pure model
above cannot distinguish `node.replace_child(value_node, value)` from
`node.replace_child(value_node, value.clone())`; this one can.
-/

/-- Payload of a NamedArg's value child in the heap. -/
inductive HData where
  | id (ident : String)
  | value (v : PVal)

/-- The NamedArg handler on the value child's object id: `type(value_node)
is ast.Id` probes the heap; on resolution `node.replace_child(value_node,
value)` installs exactly the object id found in `block.args` (tried first)
or in the constants map — the source performs no clone.  Returns the new
value-child object id and the warned-about symbols. -/
def substNamedArgRef (heap : Nat → HData) (bargs consts : List (String × Nat))
    (vref : Nat) : Nat × List String :=
  match heap vref with
  | .id key =>
    match dlookup key bargs with
    | some r => (r, [])
    | none =>
      match dlookup key consts with
      | some r => (r, [])
      | none => (vref, [key])
  | .value _ => (vref, [])

end RefModel

namespace WF

/-- A NamedArg value position: a literal or an identifier reference. -/
def wfVal : Node → Bool
  | .pval _ => true
  | .idRef _ => true
  | _ => false

/-- A Link end as the parser delivers it: a port of any kind, or an
implicit port wrapping a literal position. -/
def wfEnd : Node → Bool
  | .port _ _ _ => true
  | .implicitPort v => wfVal v
  | _ => false

def wfNamedArg : Node → Bool
  | .namedArg _ v => wfVal v
  | _ => false

mutual
/-- Modelled from the spec: the shape the parser guarantees for the items
of a block (the spec's data-model table; the parser is outside the
sources).  Blocks may occur as items because Expander introduces them. -/
def wfItem : Node → Bool
  | .assignment _ _ ch => ch.all wfNamedArg
  | .link o i => wfEnd o && wfEnd i
  | .constant _ v =>
    match v with
    | .pval _ => true
    | _ => false
  | .block _ args ch => args.all (fun p => wfVal p.2) && wfItems ch
  | _ => false

def wfItems : List Node → Bool
  | [] => true
  | n :: rest => wfItem n && wfItems rest
end

/-- A top-level component definition: exactly one Block child, itself
well-shaped. -/
def wfComp : Node → Bool
  | .component _ _ [.block ns args ch] => wfItem (.block ns args ch)
  | _ => false

/-- Modelled from the spec: a root as delivered by a successful parse — the
top-level block (no namespace, no arguments) whose children are items or
component definitions (components appear only at top level). -/
def wfTop : Node → Bool
  | .block none [] ch => ch.all (fun c => wfItem c || wfComp c)
  | _ => false

mutual
/-- No ImplicitPort anywhere in the subtree. -/
def noImpl : Node → Bool
  | .implicitPort _ => false
  | .block _ _ ch => noImplList ch
  | .component _ _ ch => noImplList ch
  | .assignment _ _ ch => noImplList ch
  | .namedArg _ v => noImpl v
  | .constant _ v => noImpl v
  | .link o i => noImpl o && noImpl i
  | .idRef _ => true
  | .pval _ => true
  | .port _ _ _ => true

def noImplList : List Node → Bool
  | [] => true
  | n :: rest => noImpl n && noImplList rest
end

mutual
/-- No node of a kind the pipeline must eliminate — Component, Block,
ImplicitPort, InternalInPort, InternalOutPort — anywhere in the subtree. -/
def cleanNode : Node → Bool
  | .block _ _ _ => false
  | .component _ _ _ => false
  | .implicitPort _ => false
  | .port .internalIn _ _ => false
  | .port .internalOut _ _ => false
  | .port _ _ _ => true
  | .assignment _ _ ch => cleanList ch
  | .namedArg _ v => cleanNode v
  | .constant _ v => cleanNode v
  | .link o i => cleanNode o && cleanNode i
  | .idRef _ => true
  | .pval _ => true

def cleanList : List Node → Bool
  | [] => true
  | n :: rest => cleanNode n && cleanList rest
end

/-- The kinds the flattened root may hold as children. -/
def flatKind : Node → Bool
  | .assignment _ _ _ => true
  | .link _ _ => true
  | .constant _ _ => true
  | _ => false

/-- The claim's stricter version: only Assignments and Links. -/
def assignOrLink : Node → Bool
  | .assignment _ _ _ => true
  | .link _ _ => true
  | _ => false

def isPort : Node → Bool
  | .port _ _ _ => true
  | _ => false

/-- Shape of root children after Flatten: qualified assignments over
NamedArgs, links over ports, constants over literals. -/
def flatOut : Node → Bool
  | .assignment _ _ ch => ch.all wfNamedArg
  | .link o i => isPort o && isPort i
  | .constant _ v =>
    match v with
    | .pval _ => true
    | _ => false
  | _ => false

/-- All values of an args/constants mapping are literal-or-Id positions. -/
def valsWf (l : List (String × Node)) : Bool :=
  l.all fun p => wfVal p.2

mutual
/-- No Assignment node anywhere in the subtree. -/
def noAssign : Node → Bool
  | .assignment _ _ _ => false
  | .block _ _ ch => noAssignList ch
  | .component _ _ ch => noAssignList ch
  | .namedArg _ v => noAssign v
  | .constant _ v => noAssign v
  | .link o i => noAssign o && noAssign i
  | .implicitPort v => noAssign v
  | .idRef _ => true
  | .pval _ => true
  | .port _ _ _ => true

def noAssignList : List Node → Bool
  | [] => true
  | n :: rest => noAssign n && noAssignList rest
end

mutual
/-- Expander hygiene: every Assignment's children are NamedArgs whose
values hide no Assignment nodes (the Expander returns from an assignment
without visiting its children, so an assignment buried there would escape
expansion). -/
def argsClean : Node → Bool
  | .namedArg _ v => noAssign v
  | .assignment _ _ ch =>
    ch.all fun c =>
      match c with
      | .namedArg _ v => noAssign v
      | _ => false
  | .block _ _ ch => argsCleanList ch
  | .component _ _ ch => argsCleanList ch
  | .constant _ v => argsClean v
  | .link o i => argsClean o && argsClean i
  | .implicitPort v => argsClean v
  | .idRef _ => true
  | .pval _ => true
  | .port _ _ _ => true

def argsCleanList : List Node → Bool
  | [] => true
  | n :: rest => argsClean n && argsCleanList rest
end

mutual
/-- No Assignment in the subtree carries an `actor_type` that is a key of
the component map. -/
def noCompAssign (comps : List (String × Node)) : Node → Bool
  | .assignment _ t ch => !dmem t comps && noCompAssignList comps ch
  | .block _ _ ch => noCompAssignList comps ch
  | .component _ _ ch => noCompAssignList comps ch
  | .namedArg _ v => noCompAssign comps v
  | .constant _ v => noCompAssign comps v
  | .link o i => noCompAssign comps o && noCompAssign comps i
  | .implicitPort v => noCompAssign comps v
  | .idRef _ => true
  | .pval _ => true
  | .port _ _ _ => true

def noCompAssignList (comps : List (String × Node)) : List Node → Bool
  | [] => true
  | n :: rest => noCompAssign comps n && noCompAssignList comps rest
end

end WF

namespace Ex

/-- A self-referential component: `component C() { x : C() }`. -/
def selfComp : Node := .component "C" [] [.block none [] [.assignment "x" "C" []]]

def selfComps : List (String × Node) := [("C", selfComp)]

/-- A script instantiating the self-referential component. -/
def rootSelf : Node := .block none [] [selfComp, .assignment "a" "C" []]

/-- A store that knows `std.Identity` and nothing else. -/
def storeU : AppInfo.Store :=
  ⟨fun t => if t = "std.Identity" then (true, true, some ⟨["in"], ["out"]⟩)
            else (false, false, none),
   fun d => "SIG:" ++ d.actor_type⟩

/-- A script whose single assignment uses an unknown actor type. -/
def rootU : Node := .block none [] [.assignment "a" "unknown.Actor" []]

/-- A script with an unresolvable Id argument: `a : std.Identity(p=nosuch)`. -/
def rootUnresolved : Node :=
  .block none [] [.assignment "a" "std.Identity" [.namedArg "p" (.idRef "nosuch")]]

/-- A script with a constant declaration and a plain actor. -/
def rootConst : Node :=
  .block none [] [.constant "K" (.pval (.int 5)),
                  .assignment "a" "std.Identity" [.namedArg "p" (.idRef "K")]]

/-- An acyclic component script: `component D() { i : std.Identity() }; a : D()`. -/
def dComp : Node := .component "D" [] [.block none [] [.assignment "i" "std.Identity" []]]

def rootAcyclic : Node := .block none [] [dComp, .assignment "a" "D" []]

/-- A two-implicit-port script: `1 > a.in ; 2 > a.reset`. -/
def rootTwoLits : Node :=
  .block none [] [.assignment "a" "std.Identity" [],
    .link (.implicitPort (.pval (.int 1))) (.port .inP (some "a") "in"),
    .link (.implicitPort (.pval (.int 2))) (.port .inP (some "a") "reset")]

/-- Heap for the aliasing example: object 0 is `Id "x"`, every other object
is the literal 7; the enclosing block's args bind `x` to object 1. -/
def exHeap : Nat → RefModel.HData
  | 0 => .id "x"
  | _ => .value (.int 7)

def exBargs : List (String × Nat) := [("x", 1)]

end Ex

/-! ## Facts about decimal printing (`str(self.counter)`) -/

namespace ReprFacts

def digitVal (c : Char) : Nat := c.toNat - 48

def digitsVal (l : List Char) : Nat := l.foldl (fun a c => a * 10 + digitVal c) 0

theorem toDigitsCore_append (b fuel : Nat) :
    ∀ (n : Nat) (ds : List Char),
      Nat.toDigitsCore b fuel n ds = Nat.toDigitsCore b fuel n [] ++ ds := by
  induction fuel with
  | zero => intro n ds; simp [Nat.toDigitsCore]
  | succ f ih =>
    intro n ds
    simp only [Nat.toDigitsCore]
    by_cases h : n / b = 0
    · simp [h]
    · simp only [h, if_false]
      rw [ih (n / b) (Nat.digitChar (n % b) :: ds), ih (n / b) [Nat.digitChar (n % b)]]
      simp

theorem digitVal_digitChar (d : Nat) (h : d < 10) : digitVal (Nat.digitChar d) = d := by
  interval_cases d <;> rfl

theorem digitsVal_toDigitsCore :
    ∀ (fuel n : Nat), n < fuel → digitsVal (Nat.toDigitsCore 10 fuel n []) = n := by
  intro fuel
  induction fuel with
  | zero => intro n h; omega
  | succ f ih =>
    intro n h
    simp only [Nat.toDigitsCore]
    by_cases h0 : n / 10 = 0
    · rw [if_pos h0]
      have hn : n % 10 = n := by omega
      simp only [digitsVal, List.foldl]
      rw [hn, digitVal_digitChar n (by omega)]
      omega
    · rw [if_neg h0, toDigitsCore_append]
      have hlt : n / 10 < f := by omega
      have ihv := ih (n / 10) hlt
      simp only [digitsVal, List.foldl_append, List.foldl] at ihv ⊢
      rw [ihv, digitVal_digitChar (n % 10) (by omega)]
      omega

theorem repr_data_inj (m n : Nat) (h : (Nat.repr m).data = (Nat.repr n).data) :
    m = n := by
  have hl : Nat.toDigits 10 m = Nat.toDigits 10 n := by
    simpa [Nat.repr, List.asString] using h
  have h1 := digitsVal_toDigitsCore (m + 1) m (by omega)
  have h2 := digitsVal_toDigitsCore (n + 1) n (by omega)
  simp only [Nat.toDigits] at hl
  rw [hl] at h1
  omega

theorem constName_inj (i j : Nat)
    (h : ImplicitPortRewrite.constName i = ImplicitPortRewrite.constName j) :
    i = j := by
  apply repr_data_inj
  have hd := congrArg String.data h
  simp only [ImplicitPortRewrite.constName, String.data_append] at hd
  exact List.append_cancel_left hd

end ReprFacts

/-! ## Shared helper lemmas -/

theorem dmem_false_iff (k : String) (l : List (String × α)) :
    dmem k l = false ↔ dlookup k l = none := by
  cases h : dlookup k l <;> simp [dmem, h]

theorem dlookup_of_all (P : α → Bool) (k : String) (v : α) :
    ∀ l : List (String × α), l.all (fun p => P p.2) → dlookup k l = some v →
      P v = true := by
  intro l
  induction l with
  | nil => intro _ h; simp [dlookup] at h
  | cons p rest ih =>
    intro hall h
    simp only [List.all_cons, Bool.and_eq_true] at hall
    by_cases hk : p.1 = k
    · simp [dlookup, hk] at h
      exact h ▸ hall.1
    · simp only [dlookup, hk, if_false] at h
      · exact ih hall.2 h

theorem dinsert_all (P : α → Bool) (k : String) (v : α) :
    ∀ l : List (String × α), l.all (fun p => P p.2) → P v = true →
      (dinsert k v l).all (fun p => P p.2) = true := by
  intro l
  induction l with
  | nil => intro _ hv; simp [dinsert, hv]
  | cons p rest ih =>
    intro hall hv
    simp only [List.all_cons, Bool.and_eq_true] at hall
    by_cases hk : p.1 = k
    · simp [dinsert, hk, hv, hall.1, hall.2]
    · simp [dinsert, hk, hall.1, ih hall.2 hv]

theorem mapVisit_append_cons (visit : Node → Option Node) (a a' : Node)
    (ha : visit a = some a') :
    ∀ pre post out, Expander.mapVisit visit (pre ++ a :: post) = some out →
      ∃ pre' post', out = pre' ++ a' :: post' ∧ pre'.length = pre.length := by
  intro pre
  induction pre with
  | nil =>
    intro post out h
    cases hrest : Expander.mapVisit visit post with
    | none =>
      simp [Expander.mapVisit, ha, hrest] at h
    | some rest =>
      simp [Expander.mapVisit, ha, hrest] at h
      exact ⟨[], rest, by simp [← h], rfl⟩
  | cons p ps ih =>
    intro post out h
    cases hv : visit p with
    | none => simp [Expander.mapVisit, hv] at h
    | some p' =>
      cases hrest : Expander.mapVisit visit (ps ++ a :: post) with
      | none => simp [Expander.mapVisit, hv, hrest] at h
      | some rest =>
        simp [Expander.mapVisit, hv, hrest] at h
        obtain ⟨pre', post', heq, hlen⟩ := ih post rest hrest
        exact ⟨p' :: pre', post', by simp [← h, heq], by simp [hlen]⟩

theorem flatMap_if_filter (p : Node → Bool) :
    ∀ l : List Node, (l.flatMap fun c => if p c then [c] else []) = l.filter p := by
  intro l
  induction l with
  | nil => rfl
  | cons n rest ih =>
    by_cases h : p n <;> simp [List.flatMap_cons, h, ih, List.filter_cons]

/-- `find_all` with `maxdepth = 1` on a block returns its matching children
(when the block itself does not match). -/
theorem find_all_depth1_block (pred : Node → Bool) (ns : Option String)
    (args : List (String × Node)) (ch : List Node)
    (hroot : pred (.block ns args ch) = false) :
    Finder.find_all pred (.block ns args ch) 1 = ch.filter pred := by
  cases ch with
  | nil => simp [Finder.find_all, Finder.findNode, Finder.findStep, Finder.childrenOf, hroot]
  | cons c rest =>
    simp only [Finder.find_all, Finder.findNode, Finder.findStep, Finder.childrenOf,
      hroot, if_false, List.isEmpty_cons, Bool.false_eq_true, List.nil_append]
    exact flatMap_if_filter pred (c :: rest)

theorem visitAssignment_shape (store : AppInfo.Store) (m m' : AppInfo.AppManifest)
    (i t : String) (ch : List Node)
    (h : AppInfo.visitAssignment store m i t ch = some m') :
    ∃ acts, m' = { m with actors := acts } := by
  simp only [AppInfo.visitAssignment, Option.bind_eq_bind, Option.bind_eq_some,
    Option.pure_def, Option.some.injEq] at h
  obtain ⟨args, _, sig, _, hm⟩ := h
  exact ⟨_, hm.symm⟩

theorem visitLink_shape (m m' : AppInfo.AppManifest) (o i : Node)
    (h : AppInfo.visitLink m o i = some m') :
    ∃ conns, m' = { m with connections := conns } := by
  simp only [AppInfo.visitLink, Option.bind_eq_bind, Option.bind_eq_some,
    Option.pure_def, Option.some.injEq] at h
  obtain ⟨oa, _, ia, _, hm⟩ := h
  exact ⟨_, hm.symm⟩

mutual
theorem appVisit_fixed (store : AppInfo.Store) :
    ∀ (n : Node) (m m' : AppInfo.AppManifest),
      AppInfo.appVisit store m n = some m' →
      m'.valid = m.valid ∧ m'.name = m.name
  | .assignment i t ch, m, m', h => by
    obtain ⟨acts, hm⟩ := visitAssignment_shape store m m' i t ch h
    subst hm; exact ⟨rfl, rfl⟩
  | .link o i, m, m', h => by
    obtain ⟨conns, hm⟩ := visitLink_shape m m' o i h
    subst hm; exact ⟨rfl, rfl⟩
  | .block _ _ ch, m, m', h => appVisitList_fixed store ch m m' h
  | .component _ _ ch, m, m', h => appVisitList_fixed store ch m m' h
  | .namedArg _ v, m, m', h => appVisit_fixed store v m m' h
  | .constant _ v, m, m', h => appVisit_fixed store v m m' h
  | .implicitPort v, m, m', h => appVisit_fixed store v m m' h
  | .idRef _, m, m', h => by
    simp only [AppInfo.appVisit, Option.some.injEq] at h
    subst h; exact ⟨rfl, rfl⟩
  | .pval _, m, m', h => by
    simp only [AppInfo.appVisit, Option.some.injEq] at h
    subst h; exact ⟨rfl, rfl⟩
  | .port _ _ _, m, m', h => by
    simp only [AppInfo.appVisit, Option.some.injEq] at h
    subst h; exact ⟨rfl, rfl⟩

theorem appVisitList_fixed (store : AppInfo.Store) :
    ∀ (l : List Node) (m m' : AppInfo.AppManifest),
      AppInfo.appVisitList store m l = some m' →
      m'.valid = m.valid ∧ m'.name = m.name
  | [], m, m', h => by
    simp only [AppInfo.appVisitList, Option.some.injEq] at h
    subst h; exact ⟨rfl, rfl⟩
  | n :: rest, m, m', h => by
    have hb : ∃ mid, AppInfo.appVisit store m n = some mid ∧
        AppInfo.appVisitList store mid rest = some m' := by
      simpa only [AppInfo.appVisitList, Option.bind_eq_bind, Option.bind_eq_some] using h
    obtain ⟨mid, h1, h2⟩ := hb
    have r1 := appVisit_fixed store n m mid h1
    have r2 := appVisitList_fixed store rest mid m' h2
    exact ⟨r1.1 ▸ r2.1, r1.2 ▸ r2.2⟩
end

/-! ## Claim theorems -/

/-- C1 (code_bug): the claim says a failed `ActorStore.lookup` during
manifest emission records an *UnknownActorType* error and yields a manifest
with `valid: false`.  The code does neither: it ignores the `found` flag,
reads the port names off the missing actor class (an AttributeError — the
compilation aborts with no manifest and no diagnostic), and `valid` is set
to `True` at construction and never written, so every manifest the code
does return has `valid = true` regardless of recorded warnings. -/
theorem claim_C1 :
    CodeGen.run Ex.storeU "s" 10 Ex.rootU = none ∧
    Ex.storeU.lookup "unknown.Actor" = (false, false, none) ∧
    (∀ (store : AppInfo.Store) (name : String) (fuel : Nat) (root tree : Node)
       (m : AppInfo.AppManifest) (w : List String),
      CodeGen.run store name fuel root = some (tree, m, w) → m.valid = true) := by
  refine ⟨rfl, rfl, ?_⟩
  intro store name fuel root tree m w h
  simp only [CodeGen.run, Option.bind_eq_bind, Option.bind_eq_some, Option.pure_def,
    Option.some.injEq] at h
  obtain ⟨⟨tree', warns⟩, _, m', hm, heq⟩ := h
  have hv := (appVisit_fixed store tree' ⟨name, [], [], true⟩ m' hm).1
  have : m' = m := by
    have := congrArg (fun p => p.2.1) heq
    simpa using this
  rw [← this]
  exact hv

/-- C8 (code_bug): on a NamedArg whose Id is bound nowhere, Flatten does
print the missing-symbol warning and leaves the Id child unchanged — but
the claim's "still produces a manifest" fails: the unsubstituted Id then
reaches `AppInfo.visit(Assignment)`, which reads `arg_val.value`, an
attribute an Id node does not have, so the compilation aborts with no
manifest. -/
theorem claim_C8 :
    CodeGen.pipeline 10 Ex.rootUnresolved =
      some (.block none []
        [.assignment "a" "std.Identity" [.namedArg "p" (.idRef "nosuch")]],
        ["nosuch"]) ∧
    AppInfo.getValueAttr (.idRef "nosuch") = none ∧
    CodeGen.run Ex.storeU "s" 10 Ex.rootUnresolved = none := by
  exact ⟨rfl, rfl, rfl⟩

/-- C10 (confirmed): an Assignment whose `actor_type` is not a key of the
component map is returned by the Expander exactly as it was — same ident,
same actor_type, same NamedArg children (the source returns before
visiting them) — and inside a Block parent it keeps its position among the
children.  (`fuel + 1` because reaching the node costs one visitor
frame.) -/
theorem claim_C10 (comps : List (String × Node)) (i t : String) (ch : List Node)
    (h : dmem t comps = false) :
    (∀ fuel, Expander.expandNode comps (fuel + 1) (.assignment i t ch) =
      some (.assignment i t ch)) ∧
    (∀ (fuel : Nat) (ns : Option String) (args : List (String × Node))
       (pre post : List Node) (out : Node),
      Expander.expandNode comps (fuel + 1)
          (.block ns args (pre ++ .assignment i t ch :: post)) = some out →
      ∃ pre' post', out = .block ns args (pre' ++ .assignment i t ch :: post') ∧
        pre'.length = pre.length) := by
  have hl : dlookup t comps = none := (dmem_false_iff t comps).mp h
  have hstep : ∀ fuel, Expander.expandNode comps (fuel + 1) (.assignment i t ch) =
      some (.assignment i t ch) := by
    intro fuel
    simp [Expander.expandNode, Expander.expandStep, hl]
  refine ⟨hstep, ?_⟩
  intro fuel ns args pre post out hout
  simp only [Expander.expandNode, Expander.expandStep, Option.map_eq_some'] at hout
  obtain ⟨ch', hch, hblk⟩ := hout
  cases fuel with
  | zero =>
    exfalso
    have : Expander.mapVisit (Expander.expandNode comps 0)
        (pre ++ .assignment i t ch :: post) = none := by
      cases pre <;> simp [Expander.mapVisit, Expander.expandNode]
    rw [this] at hch
    exact Option.noConfusion hch
  | succ f =>
    obtain ⟨pre', post', heq, hlen⟩ :=
      mapVisit_append_cons (Expander.expandNode comps (f + 1))
        (.assignment i t ch) (.assignment i t ch) (hstep f) pre post ch' hch
    exact ⟨pre', post', by rw [← hblk, heq], hlen⟩

/-- Closed witness for C10 at a concrete input. -/
theorem claim_C10_witness :
    Expander.expandNode Ex.selfComps 3
        (.assignment "a" "std.Identity" []) =
      some (.assignment "a" "std.Identity" []) :=
  (claim_C10 Ex.selfComps "a" "std.Identity" [] (by rfl)).1 2

/-- Expanding an assignment of the self-referential component exhausts any
call-stack budget. -/
theorem expand_self_none :
    ∀ (fuel : Nat) (i : String),
      Expander.expandNode Ex.selfComps fuel (.assignment i "C" []) = none := by
  intro fuel
  induction fuel using Nat.strong_induction_on with
  | _ fuel ih =>
    match fuel with
    | 0 => intro i; rfl
    | 1 => intro i; rfl
    | f + 2 =>
      intro i
      have h0 := ih f (by omega) "x"
      simp only [Ex.selfComps, Ex.selfComp] at h0
      simp [Expander.expandNode, Expander.expandStep, Expander.mapVisit,
        Expander.argsOf, Ex.selfComps, Ex.selfComp, dlookup, h0]

/-- The same when the visit starts at a block holding the self-referential
assignment. -/
theorem expand_selfBlock_none :
    ∀ (fuel : Nat) (ns : Option String) (args : List (String × Node)),
      Expander.expandNode Ex.selfComps fuel
        (.block ns args [.assignment "x" "C" []]) = none := by
  intro fuel ns args
  match fuel with
  | 0 => rfl
  | g + 1 =>
    have h0 := expand_self_none g "x"
    simp only [Ex.selfComps, Ex.selfComp] at h0
    simp [Expander.expandNode, Expander.expandStep, Expander.mapVisit,
      Ex.selfComps, Ex.selfComp, h0]

/-- The same, starting from the component definition node itself (its body
contains the self-referential assignment). -/
theorem expand_selfComp_none :
    ∀ fuel : Nat, Expander.expandNode Ex.selfComps fuel Ex.selfComp = none := by
  intro fuel
  match fuel with
  | 0 => rfl
  | g + 1 =>
    have h0 := expand_selfBlock_none g none []
    simp only [Ex.selfComps, Ex.selfComp] at h0
    simp [Expander.expandNode, Expander.expandStep, Expander.mapVisit,
      Ex.selfComps, Ex.selfComp, h0]

/-- C5 (code_bug): the claim says Expander caps its expansion recursion at
a configurable depth (default 1024) and emits a *RecursiveComponent* error.
The source has no cap and no such diagnostic: on a self-referential
component the `self.visit(new)` recursion at an expanded assignment
consumes every finite call-stack budget, so the expansion — and hence the
whole pipeline — never returns, for every budget (in particular 1024). -/
theorem claim_C5 :
    (∀ (fuel : Nat) (i : String),
      Expander.expandNode Ex.selfComps fuel (.assignment i "C" []) = none) ∧
    (∀ fuel : Nat, CodeGen.pipeline fuel Ex.rootSelf = none) := by
  refine ⟨expand_self_none, ?_⟩
  intro fuel
  have hexp : ∀ f : Nat,
      Expander.expandNode Ex.selfComps f Ex.rootSelf = none := by
    intro f
    match f with
    | 0 => rfl
    | g + 1 =>
      have h0 := expand_selfComp_none g
      simp only [Ex.selfComps, Ex.selfComp] at h0
      simp [Expander.expandNode, Expander.expandStep, Expander.mapVisit,
        Ex.selfComps, Ex.selfComp, Ex.rootSelf, h0]
  have hx : Expander.expandNode (CodeGen.collectComponents Ex.rootSelf) fuel
      Ex.rootSelf = none := by
    have hcmap : CodeGen.collectComponents Ex.rootSelf = Ex.selfComps := rfl
    rw [hcmap]
    exact hexp fuel
  simp [CodeGen.pipeline, hx]

/-- C3 (confirmed): Flatten rewrites every Assignment ident to
`':'.join(stack + [ident])` — unchanged at top level where the stack is
empty — and rewrites every Port-family node's actor to
`':'.join(stack + [actor])` when the actor is set and `':'.join(stack)`
when it is not, both when the port is visited directly and when it is
visited as a Link end. -/
theorem claim_C3 (stack : List String) (bargs consts : List (String × Node))
    (i t : String) (ch : List Node) (k : PortKind) (a p : String) (o inp : Node) :
    Flatten.flattenNode stack bargs consts (.assignment i t ch) =
      ([.assignment (String.intercalate ":" (stack ++ [i])) t
          (Flatten.flattenArgs bargs consts ch).1], consts,
        (Flatten.flattenArgs bargs consts ch).2) ∧
    String.intercalate ":" (([] : List String) ++ [i]) = i ∧
    Flatten.flattenNode stack bargs consts (.port k (some a) p) =
      ([.port k (some (String.intercalate ":" (stack ++ [a]))) p], consts, []) ∧
    Flatten.flattenNode stack bargs consts (.port k none p) =
      ([.port k (some (String.intercalate ":" stack)) p], consts, []) ∧
    Flatten.flattenNode stack bargs consts (.link o inp) =
      ([.link (Flatten.flattenEnd stack o) (Flatten.flattenEnd stack inp)],
        consts, []) ∧
    Flatten.flattenEnd stack (.port k (some a) p) =
      .port k (some (String.intercalate ":" (stack ++ [a]))) p ∧
    Flatten.flattenEnd stack (.port k none p) =
      .port k (some (String.intercalate ":" stack)) p :=
  ⟨rfl, rfl, rfl, rfl, rfl, rfl, rfl⟩

/-- C6 counterexample (closed): at `p = x` with the enclosing block's args
binding `x` to object 1, the substituted value child *is* object 1 — the
very node stored in the args map, not a clone; the claim's "shares no
structure" is false here. -/
theorem claim_C6_counterexample :
    (RefModel.substNamedArgRef Ex.exHeap Ex.exBargs [] 0).1 = 1 ∧
    dlookup "x" Ex.exBargs = some 1 ∧
    ¬((RefModel.substNamedArgRef Ex.exHeap Ex.exBargs [] 0).1 ≠ 1) := by
  exact ⟨rfl, rfl, fun hne => hne rfl⟩

/-- C6 as amended (corrected): for a NamedArg whose value child is an Id,
Flatten resolves the identifier first in the enclosing block's `args` and
only then in the constants map; on success it replaces the Id child with
the resolved value node *itself* — the object referenced by the map entry,
no clone being taken — and on failure it leaves the Id child unchanged and
warns. -/
theorem claim_C6 (heap : Nat → RefModel.HData) (bargs consts : List (String × Nat))
    (vref r : Nat) (key : String) (hk : heap vref = .id key) :
    (dlookup key bargs = some r →
      RefModel.substNamedArgRef heap bargs consts vref = (r, [])) ∧
    (dlookup key bargs = none → dlookup key consts = some r →
      RefModel.substNamedArgRef heap bargs consts vref = (r, [])) ∧
    (dlookup key bargs = none → dlookup key consts = none →
      RefModel.substNamedArgRef heap bargs consts vref = (vref, [key])) := by
  refine ⟨?_, ?_, ?_⟩
  · intro hb; simp [RefModel.substNamedArgRef, hk, hb]
  · intro hb hc; simp [RefModel.substNamedArgRef, hk, hb, hc]
  · intro hb hc; simp [RefModel.substNamedArgRef, hk, hb, hc]

/-- Closed witness for C6 at concrete inputs (args hit, constants hit, and
miss). -/
theorem claim_C6_witness :
    RefModel.substNamedArgRef Ex.exHeap Ex.exBargs [("x", 5)] 0 = (1, []) ∧
    RefModel.substNamedArgRef Ex.exHeap [] [("x", 5)] 0 = (5, []) ∧
    RefModel.substNamedArgRef Ex.exHeap [] [] 0 = (0, ["x"]) :=
  ⟨(claim_C6 Ex.exHeap Ex.exBargs [("x", 5)] 0 1 "x" rfl).1 rfl,
   (claim_C6 Ex.exHeap [] [("x", 5)] 0 5 "x" rfl).2.1 rfl rfl,
   (claim_C6 Ex.exHeap [] [] 0 0 "x" rfl).2.2 rfl rfl⟩

theorem range1_append (s m n : Nat) :
    List.range' s m ++ List.range' (s + m) n = List.range' s (m + n) := by
  have h := List.range'_append s m n 1
  simp only [Nat.one_mul] at h
  rw [h, Nat.add_comm]

theorem countImpl_wfVal (v : Node) (h : WF.wfVal v = true) :
    ImplicitPortRewrite.countImpl v = 0 := by
  cases v <;> first | rfl | simp [WF.wfVal] at h

theorem rewrite_wfVal (c : Nat) (v : Node) (h : WF.wfVal v = true) :
    ImplicitPortRewrite.rewriteNode c v = (v, [], c) := by
  cases v <;> first | rfl | simp [WF.wfVal] at h

theorem rewrite_namedArg (c : Nat) (n : Node) (h : WF.wfNamedArg n = true) :
    ImplicitPortRewrite.rewriteNode c n = (n, [], c) := by
  cases n <;> simp [WF.wfNamedArg] at h
  case namedArg a v =>
    simp [ImplicitPortRewrite.rewriteNode, rewrite_wfVal c v h]

theorem rewriteList_namedArgs (c : Nat) :
    ∀ ch : List Node, ch.all WF.wfNamedArg = true →
      ImplicitPortRewrite.rewriteList c ch = (ch, [], c) := by
  intro ch
  induction ch with
  | nil => intro _; rfl
  | cons n rest ih =>
    intro h
    simp only [List.all_cons, Bool.and_eq_true] at h
    simp [ImplicitPortRewrite.rewriteList, rewrite_namedArg c n h.1, ih h.2]

theorem countImplList_namedArgs :
    ∀ ch : List Node, ch.all WF.wfNamedArg = true →
      ImplicitPortRewrite.countImplList ch = 0 := by
  intro ch
  induction ch with
  | nil => intro _; rfl
  | cons n rest ih =>
    intro h
    simp only [List.all_cons, Bool.and_eq_true] at h
    have h1 := h.1
    have hn : ImplicitPortRewrite.countImpl n = 0 := by
      cases n <;> simp [WF.wfNamedArg] at h1
      case namedArg a v =>
        simp [ImplicitPortRewrite.countImpl, countImpl_wfVal v h1]
    simp [ImplicitPortRewrite.countImplList, hn, ih h.2]

theorem rewriteEnd_names (c : Nat) (e : Node) (h : WF.wfEnd e = true) :
    (ImplicitPortRewrite.rewriteEnd c e).2.2.1 =
      (List.range' (c + 1) (ImplicitPortRewrite.countImpl e)).map
        ImplicitPortRewrite.constName ∧
    (ImplicitPortRewrite.rewriteEnd c e).2.2.2 =
      c + ImplicitPortRewrite.countImpl e ∧
    (ImplicitPortRewrite.rewriteEnd c e).2.1.length =
      ImplicitPortRewrite.countImpl e := by
  cases e <;> simp [WF.wfEnd] at h
  case port k a p =>
    simp [ImplicitPortRewrite.rewriteEnd, ImplicitPortRewrite.countImpl]
  case implicitPort v =>
    have h0 := countImpl_wfVal v h
    simp [ImplicitPortRewrite.rewriteEnd, ImplicitPortRewrite.countImpl, h0,
      List.range']

mutual
theorem rewriteBlock_names :
    ∀ (c : Nat) (ns : Option String) (args : List (String × Node))
      (ch : List Node), WF.wfItems ch = true →
      (ImplicitPortRewrite.rewriteNode c (.block ns args ch)).2.1 =
        (List.range' (c + 1) (ImplicitPortRewrite.countImplList ch)).map
          ImplicitPortRewrite.constName ∧
      (ImplicitPortRewrite.rewriteNode c (.block ns args ch)).2.2 =
        c + ImplicitPortRewrite.countImplList ch
  | c, ns, args, ch, h => by
    have hr := rewriteChildren_names c ch h
    simpa only [ImplicitPortRewrite.rewriteNode] using hr

theorem rewriteChildren_names :
    ∀ (c : Nat) (l : List Node), WF.wfItems l = true →
      (ImplicitPortRewrite.rewriteBlockChildren c l).2.2.1 =
        (List.range' (c + 1) (ImplicitPortRewrite.countImplList l)).map
          ImplicitPortRewrite.constName ∧
      (ImplicitPortRewrite.rewriteBlockChildren c l).2.2.2 =
        c + ImplicitPortRewrite.countImplList l
  | c, [], _ => by
    simp [ImplicitPortRewrite.rewriteBlockChildren,
      ImplicitPortRewrite.countImplList, List.range']
  | c, n :: rest, h => by
    have hn : WF.wfItem n = true ∧ WF.wfItems rest = true := by
      simpa [WF.wfItems, Bool.and_eq_true] using h
    have hrest := hn.2
    have hitem := hn.1
    cases n <;> simp only [WF.wfItem] at hitem
    all_goals try exact Bool.noConfusion hitem
    case link o i =>
      have ho : WF.wfEnd o = true := by
        have := hitem; simp [Bool.and_eq_true] at this; exact this.1
      have hi : WF.wfEnd i = true := by
        have := hitem; simp [Bool.and_eq_true] at this; exact this.2
      have ro := rewriteEnd_names c o ho
      simp only [ImplicitPortRewrite.rewriteBlockChildren,
        ImplicitPortRewrite.countImplList, ImplicitPortRewrite.countImpl]
      rw [ro.2.1]
      have ri := rewriteEnd_names (c + ImplicitPortRewrite.countImpl o) i hi
      rw [ri.2.1]
      have rr := rewriteChildren_names
        (c + ImplicitPortRewrite.countImpl o + ImplicitPortRewrite.countImpl i)
        rest hrest
      constructor
      · rw [ro.1, ri.1, rr.1, ← List.map_append, ← List.map_append]
        rw [show c + ImplicitPortRewrite.countImpl o + 1 =
          c + 1 + ImplicitPortRewrite.countImpl o by omega, range1_append]
        rw [show c + ImplicitPortRewrite.countImpl o +
            ImplicitPortRewrite.countImpl i + 1 =
          c + 1 + (ImplicitPortRewrite.countImpl o +
            ImplicitPortRewrite.countImpl i) by omega, range1_append]
      · rw [rr.2]
        omega
    case assignment i t cha =>
      have hc0 := countImplList_namedArgs cha hitem
      have hrw := rewriteList_namedArgs c cha hitem
      have rr := rewriteChildren_names c rest hrest
      simp only [ImplicitPortRewrite.rewriteBlockChildren,
        ImplicitPortRewrite.rewriteNode, hrw,
        ImplicitPortRewrite.countImplList, ImplicitPortRewrite.countImpl, hc0]
      simpa using rr
    case constant k v =>
      have hv : WF.wfVal v = true := by
        cases v <;> first | rfl | simp at hitem
      have hc0 := countImpl_wfVal v hv
      have hrw := rewrite_wfVal c v hv
      have rr := rewriteChildren_names c rest hrest
      simp only [ImplicitPortRewrite.rewriteBlockChildren,
        ImplicitPortRewrite.rewriteNode, hrw,
        ImplicitPortRewrite.countImplList, ImplicitPortRewrite.countImpl, hc0]
      simpa using rr
    case block ns' args' ch' =>
      have hb : WF.wfItems ch' = true := by
        have := hitem; simp [Bool.and_eq_true] at this; exact this.2
      have rb := rewriteBlock_names c ns' args' ch' hb
      simp only [ImplicitPortRewrite.rewriteBlockChildren,
        ImplicitPortRewrite.countImplList, ImplicitPortRewrite.countImpl]
      rw [rb.2]
      have rr := rewriteChildren_names
        (c + ImplicitPortRewrite.countImplList ch') rest hrest
      constructor
      · rw [rb.1, rr.1, ← List.map_append]
        rw [show c + ImplicitPortRewrite.countImplList ch' + 1 =
          c + 1 + ImplicitPortRewrite.countImplList ch' by omega, range1_append]
      · rw [rr.2]
        omega
end

/-- C4 (confirmed): over a parser-shaped block, ImplicitPortRewrite
replaces each ImplicitPort at a Link end (visited in pre-order) by
`Port(actor='_literal_const_k', port='token')` and hands its Block an
appended `Assignment('_literal_const_k', 'std.Constant',
[data=<literal>, n=-1])`; the generated names are `_literal_const_(c+1)`,
`_literal_const_(c+2)`, … for counter start `c` (`1, 2, …` for the pass as
constructed), one per ImplicitPort node of the input — so the number of
synthesized assignments equals the number of ImplicitPorts — and they are
pairwise distinct. -/
theorem claim_C4 (ns : Option String) (args : List (String × Node))
    (ch : List Node) (h : WF.wfItems ch = true) (v : PVal) (c : Nat)
    (a p : String) :
    (ImplicitPortRewrite.rewriteNode 0 (.block ns args ch)).2.1 =
      (List.range' 1 (ImplicitPortRewrite.countImplList ch)).map
        ImplicitPortRewrite.constName ∧
    (ImplicitPortRewrite.rewriteNode 0 (.block ns args ch)).2.1.length =
      ImplicitPortRewrite.countImplList ch ∧
    (ImplicitPortRewrite.rewriteNode 0 (.block ns args ch)).2.1.Nodup ∧
    (ImplicitPortRewrite.rewriteNode 0 (.block ns args ch)).2.2 =
      ImplicitPortRewrite.countImplList ch ∧
    ImplicitPortRewrite.rewriteEnd c (.implicitPort (.pval v)) =
      (.port .plain (some (ImplicitPortRewrite.constName (c + 1))) "token",
       [.assignment (ImplicitPortRewrite.constName (c + 1)) "std.Constant"
          [.namedArg "data" (.pval v), .namedArg "n" (.pval (.int (-1)))]],
       [ImplicitPortRewrite.constName (c + 1)], c + 1) ∧
    ImplicitPortRewrite.rewriteNode c
        (.block ns args
          [.link (.implicitPort (.pval v)) (.port .inP (some a) p)]) =
      (.block ns args
        [.link (.port .plain (some (ImplicitPortRewrite.constName (c + 1)))
            "token") (.port .inP (some a) p),
         .assignment (ImplicitPortRewrite.constName (c + 1)) "std.Constant"
           [.namedArg "data" (.pval v), .namedArg "n" (.pval (.int (-1)))]],
       [ImplicitPortRewrite.constName (c + 1)], c + 1) := by
  have hb := rewriteBlock_names 0 ns args ch h
  have hnames := hb.1
  refine ⟨hnames, ?_, ?_, ?_, rfl, rfl⟩
  · rw [hnames]
    simp [List.length_range']
  · rw [hnames]
    exact (List.nodup_range' 1 (ImplicitPortRewrite.countImplList ch)).map
      (fun x y hxy => ReprFacts.constName_inj x y hxy)
  · have := hb.2
    simpa using this

/-- Closed witness for C4 on the two-implicit-port script: two synthesized
constants, named `_literal_const_1` and `_literal_const_2`, distinct. -/
theorem claim_C4_witness :
    WF.wfItems
      [Node.assignment "a" "std.Identity" [],
       Node.link (.implicitPort (.pval (.int 1))) (.port .inP (some "a") "in"),
       Node.link (.implicitPort (.pval (.int 2)))
         (.port .inP (some "a") "reset")] = true ∧
    (ImplicitPortRewrite.rewriteNode 0 (.block none []
      [Node.assignment "a" "std.Identity" [],
       Node.link (.implicitPort (.pval (.int 1))) (.port .inP (some "a") "in"),
       Node.link (.implicitPort (.pval (.int 2)))
         (.port .inP (some "a") "reset")])).2.1 =
      ["_literal_const_1", "_literal_const_2"] ∧
    (ImplicitPortRewrite.rewriteNode 0 (.block none []
      [Node.assignment "a" "std.Identity" [],
       Node.link (.implicitPort (.pval (.int 1))) (.port .inP (some "a") "in"),
       Node.link (.implicitPort (.pval (.int 2)))
         (.port .inP (some "a") "reset")])).2.1.Nodup :=
  ⟨rfl,
   by
    rw [(claim_C4 none []
      [Node.assignment "a" "std.Identity" [],
       Node.link (.implicitPort (.pval (.int 1))) (.port .inP (some "a") "in"),
       Node.link (.implicitPort (.pval (.int 2)))
         (.port .inP (some "a") "reset")] (by rfl) (.int 0) 0 "x" "y").1]
    rfl,
   (claim_C4 none []
      [Node.assignment "a" "std.Identity" [],
       Node.link (.implicitPort (.pval (.int 1))) (.port .inP (some "a") "in"),
       Node.link (.implicitPort (.pval (.int 2)))
         (.port .inP (some "a") "reset")] (by rfl) (.int 0) 0 "x" "y").2.2.1⟩

theorem noCompAssignList_eq_all (comps : List (String × Node)) :
    ∀ l : List Node, WF.noCompAssignList comps l = l.all (WF.noCompAssign comps) := by
  intro l
  induction l with
  | nil => rfl
  | cons n rest ih => simp [WF.noCompAssignList, ih]

theorem argsCleanList_eq_all :
    ∀ l : List Node, WF.argsCleanList l = l.all WF.argsClean := by
  intro l
  induction l with
  | nil => rfl
  | cons n rest ih => simp [WF.argsCleanList, ih]

theorem noAssignList_eq_all :
    ∀ l : List Node, WF.noAssignList l = l.all WF.noAssign := by
  intro l
  induction l with
  | nil => rfl
  | cons n rest ih => simp [WF.noAssignList, ih]

theorem wfItems_eq_all :
    ∀ l : List Node, WF.wfItems l = l.all WF.wfItem := by
  intro l
  induction l with
  | nil => rfl
  | cons n rest ih => simp [WF.wfItems, ih]

theorem noImplList_eq_all :
    ∀ l : List Node, WF.noImplList l = l.all WF.noImpl := by
  intro l
  induction l with
  | nil => rfl
  | cons n rest ih => simp [WF.noImplList, ih]

theorem cleanList_eq_all :
    ∀ l : List Node, WF.cleanList l = l.all WF.cleanNode := by
  intro l
  induction l with
  | nil => rfl
  | cons n rest ih => simp [WF.cleanList, ih]

/-- Elementwise preservation through `map(self.visit, children)`. -/
theorem mapVisit_all (visit : Node → Option Node) (P Q : Node → Bool)
    (hstep : ∀ n n', P n = true → visit n = some n' → Q n' = true) :
    ∀ l l', l.all P = true → Expander.mapVisit visit l = some l' →
      l'.all Q = true := by
  intro l
  induction l with
  | nil =>
    intro l' _ h
    simp only [Expander.mapVisit, Option.some.injEq] at h
    subst h; rfl
  | cons n rest ih =>
    intro l' hall h
    simp only [List.all_cons, Bool.and_eq_true] at hall
    cases hv : visit n with
    | none => simp [Expander.mapVisit, hv] at h
    | some n' =>
      cases hrest : Expander.mapVisit visit rest with
      | none => simp [Expander.mapVisit, hv, hrest] at h
      | some rest' =>
        simp only [Expander.mapVisit, hv, hrest, Option.bind_eq_bind,
          Option.some_bind, Option.pure_def, Option.some.injEq] at h
        subst h
        simp [hstep n n' hall.1 hv, ih rest' hall.2 hrest]

/-- When every element visit returns the element itself, so does the map. -/
theorem mapVisit_eq_self (visit : Node → Option Node) :
    ∀ l l', (∀ n, n ∈ l → ∀ n', visit n = some n' → n' = n) →
      Expander.mapVisit visit l = some l' → l' = l := by
  intro l
  induction l with
  | nil =>
    intro l' _ h
    simp only [Expander.mapVisit, Option.some.injEq] at h
    exact h.symm
  | cons n rest ih =>
    intro l' hstep h
    cases hv : visit n with
    | none => simp [Expander.mapVisit, hv] at h
    | some n' =>
      cases hrest : Expander.mapVisit visit rest with
      | none => simp [Expander.mapVisit, hv, hrest] at h
      | some rest' =>
        simp only [Expander.mapVisit, hv, hrest, Option.bind_eq_bind,
          Option.some_bind, Option.pure_def, Option.some.injEq] at h
        have h1 : n' = n := hstep n (by simp) n' hv
        have h2 : rest' = rest :=
          ih rest' (fun m hm m' hv' => hstep m (by simp [hm]) m' hv') hrest
        rw [← h, h1, h2]

mutual
theorem noAssign_noCompAssign (comps : List (String × Node)) :
    ∀ n : Node, WF.noAssign n = true → WF.noCompAssign comps n = true
  | .block _ _ ch, h => noAssignList_noCompAssignList comps ch h
  | .component _ _ ch, h => noAssignList_noCompAssignList comps ch h
  | .namedArg _ v, h => noAssign_noCompAssign comps v h
  | .constant _ v, h => noAssign_noCompAssign comps v h
  | .implicitPort v, h => noAssign_noCompAssign comps v h
  | .link o i, h => by
    simp only [WF.noAssign, Bool.and_eq_true] at h
    simp only [WF.noCompAssign, Bool.and_eq_true]
    exact ⟨noAssign_noCompAssign comps o h.1, noAssign_noCompAssign comps i h.2⟩
  | .idRef _, _ => rfl
  | .pval _, _ => rfl
  | .port _ _ _, _ => rfl

theorem noAssignList_noCompAssignList (comps : List (String × Node)) :
    ∀ l : List Node, WF.noAssignList l = true → WF.noCompAssignList comps l = true
  | [], _ => rfl
  | n :: rest, h => by
    simp only [WF.noAssignList, Bool.and_eq_true] at h
    simp only [WF.noCompAssignList, Bool.and_eq_true]
    exact ⟨noAssign_noCompAssign comps n h.1,
      noAssignList_noCompAssignList comps rest h.2⟩
end

/-- Visiting an assignment-free subtree is the identity (only assignments
are ever rewritten). -/
theorem expand_noAssign_id (comps : List (String × Node)) :
    ∀ (fuel : Nat) (t t' : Node), WF.noAssign t = true →
      Expander.expandNode comps fuel t = some t' → t' = t := by
  intro fuel
  induction fuel with
  | zero => intro t t' _ h; simp [Expander.expandNode] at h
  | succ fuel ih =>
    intro t t' ht h
    cases t with
    | assignment i t0 ch => simp [WF.noAssign] at ht
    | block ns args ch =>
      simp only [Expander.expandNode, Expander.expandStep,
        Option.map_eq_some'] at h
      obtain ⟨ch', hch, hout⟩ := h
      simp only [WF.noAssign] at ht
      rw [noAssignList_eq_all] at ht
      have := mapVisit_eq_self (Expander.expandNode comps fuel) ch ch'
        (fun n hn n' hv => ih n n' (by
          have := List.all_eq_true.mp ht n hn
          simpa using this) hv) hch
      rw [← hout, this]
    | component nm a ch =>
      simp only [Expander.expandNode, Expander.expandStep,
        Option.map_eq_some'] at h
      obtain ⟨ch', hch, hout⟩ := h
      simp only [WF.noAssign] at ht
      rw [noAssignList_eq_all] at ht
      have := mapVisit_eq_self (Expander.expandNode comps fuel) ch ch'
        (fun n hn n' hv => ih n n' (by
          have := List.all_eq_true.mp ht n hn
          simpa using this) hv) hch
      rw [← hout, this]
    | link o i =>
      simp only [WF.noAssign, Bool.and_eq_true] at ht
      simp only [Expander.expandNode, Expander.expandStep,
        Option.bind_eq_bind, Option.bind_eq_some, Option.pure_def,
        Option.some.injEq] at h
      obtain ⟨o', ho, i', hi, hout⟩ := h
      rw [← hout, ih o o' ht.1 ho, ih i i' ht.2 hi]
    | constant k v =>
      simp only [Expander.expandNode, Expander.expandStep,
        Option.map_eq_some'] at h
      obtain ⟨v', hv, hout⟩ := h
      simp only [WF.noAssign] at ht
      rw [← hout, ih v v' ht hv]
    | namedArg a v =>
      simp only [Expander.expandNode, Expander.expandStep,
        Option.map_eq_some'] at h
      obtain ⟨v', hv, hout⟩ := h
      simp only [WF.noAssign] at ht
      rw [← hout, ih v v' ht hv]
    | implicitPort v =>
      simp only [Expander.expandNode, Expander.expandStep,
        Option.map_eq_some'] at h
      obtain ⟨v', hv, hout⟩ := h
      simp only [WF.noAssign] at ht
      rw [← hout, ih v v' ht hv]
    | idRef s =>
      simp only [Expander.expandNode, Expander.expandStep,
        Option.some.injEq] at h
      exact h.symm
    | pval v =>
      simp only [Expander.expandNode, Expander.expandStep,
        Option.some.injEq] at h
      exact h.symm
    | port k a p =>
      simp only [Expander.expandNode, Expander.expandStep,
        Option.some.injEq] at h
      exact h.symm

/-- A completed Expander pass leaves no component-typed assignment and
preserves the hygiene predicate. -/
theorem expand_clean (comps : List (String × Node))
    (hc : comps.all (fun p => WF.argsClean p.2) = true) :
    ∀ (fuel : Nat) (t t' : Node), WF.argsClean t = true →
      Expander.expandNode comps fuel t = some t' →
      WF.noCompAssign comps t' = true ∧ WF.argsClean t' = true := by
  intro fuel
  induction fuel with
  | zero => intro t t' _ h; simp [Expander.expandNode] at h
  | succ fuel ih =>
    intro t t' ht h
    cases t with
    | assignment i t0 ch =>
      simp only [Expander.expandNode, Expander.expandStep] at h
      cases hl : dlookup t0 comps with
      | none =>
        rw [hl] at h
        simp only [Option.some.injEq] at h
        subst h
        refine ⟨?_, ht⟩
        simp only [WF.noCompAssign, Bool.and_eq_true]
        constructor
        · simp [dmem, hl]
        · rw [noCompAssignList_eq_all, List.all_eq_true]
          intro c hcmem
          simp only [WF.argsClean] at ht
          have hch := List.all_eq_true.mp ht c hcmem
          cases c
          all_goals refine noAssign_noCompAssign comps _ ?_
          all_goals simpa [WF.noAssign] using hch
      | some comp =>
        rw [hl] at h
        have hcomp : WF.argsClean comp = true :=
          dlookup_of_all WF.argsClean t0 comp comps hc hl
        cases comp
        case component nm an chc =>
          cases chc with
          | nil => simp at h
          | cons b rest =>
            cases b
            case block bns bargs bch =>
              have hb : WF.argsClean
                  (.block (some i) (Expander.argsOf ch) bch) = true := by
                simp only [WF.argsClean, WF.argsCleanList,
                  Bool.and_eq_true] at hcomp ⊢
                exact hcomp.1
              exact ih _ t' hb h
            all_goals simp at h
        all_goals simp at h
    | block ns args ch =>
      simp only [Expander.expandNode, Expander.expandStep,
        Option.map_eq_some'] at h
      obtain ⟨ch', hch, hout⟩ := h
      subst hout
      simp only [WF.argsClean] at ht
      rw [argsCleanList_eq_all] at ht
      have h1 := mapVisit_all (Expander.expandNode comps fuel) WF.argsClean
        (WF.noCompAssign comps) (fun n n' hp hv => (ih n n' hp hv).1)
        ch ch' ht hch
      have h2 := mapVisit_all (Expander.expandNode comps fuel) WF.argsClean
        WF.argsClean (fun n n' hp hv => (ih n n' hp hv).2) ch ch' ht hch
      constructor
      · simp only [WF.noCompAssign]
        rw [noCompAssignList_eq_all]
        exact h1
      · simp only [WF.argsClean]
        rw [argsCleanList_eq_all]
        exact h2
    | component nm a ch =>
      simp only [Expander.expandNode, Expander.expandStep,
        Option.map_eq_some'] at h
      obtain ⟨ch', hch, hout⟩ := h
      subst hout
      simp only [WF.argsClean] at ht
      rw [argsCleanList_eq_all] at ht
      have h1 := mapVisit_all (Expander.expandNode comps fuel) WF.argsClean
        (WF.noCompAssign comps) (fun n n' hp hv => (ih n n' hp hv).1)
        ch ch' ht hch
      have h2 := mapVisit_all (Expander.expandNode comps fuel) WF.argsClean
        WF.argsClean (fun n n' hp hv => (ih n n' hp hv).2) ch ch' ht hch
      constructor
      · simp only [WF.noCompAssign]
        rw [noCompAssignList_eq_all]
        exact h1
      · simp only [WF.argsClean]
        rw [argsCleanList_eq_all]
        exact h2
    | link o i =>
      simp only [Expander.expandNode, Expander.expandStep,
        Option.bind_eq_bind, Option.bind_eq_some, Option.pure_def,
        Option.some.injEq] at h
      obtain ⟨o', ho, i', hi, hout⟩ := h
      subst hout
      simp only [WF.argsClean, Bool.and_eq_true] at ht
      have r1 := ih o o' ht.1 ho
      have r2 := ih i i' ht.2 hi
      simp [WF.noCompAssign, WF.argsClean, r1.1, r1.2, r2.1, r2.2]
    | constant k v =>
      simp only [Expander.expandNode, Expander.expandStep,
        Option.map_eq_some'] at h
      obtain ⟨v', hv, hout⟩ := h
      subst hout
      simp only [WF.argsClean] at ht
      have r := ih v v' ht hv
      simp [WF.noCompAssign, WF.argsClean, r.1, r.2]
    | namedArg a v =>
      simp only [Expander.expandNode, Expander.expandStep,
        Option.map_eq_some'] at h
      obtain ⟨v', hv, hout⟩ := h
      subst hout
      simp only [WF.argsClean] at ht
      have hid := expand_noAssign_id comps fuel v v' ht hv
      constructor
      · simp only [WF.noCompAssign]
        rw [hid]
        exact noAssign_noCompAssign comps v ht
      · simp only [WF.argsClean]
        rw [hid]
        exact ht
    | implicitPort v =>
      simp only [Expander.expandNode, Expander.expandStep,
        Option.map_eq_some'] at h
      obtain ⟨v', hv, hout⟩ := h
      subst hout
      simp only [WF.argsClean] at ht
      have r := ih v v' ht hv
      simp [WF.noCompAssign, WF.argsClean, r.1, r.2]
    | idRef s =>
      simp only [Expander.expandNode, Expander.expandStep,
        Option.some.injEq] at h
      subst h; exact ⟨rfl, rfl⟩
    | pval v =>
      simp only [Expander.expandNode, Expander.expandStep,
        Option.some.injEq] at h
      subst h; exact ⟨rfl, rfl⟩
    | port k a p =>
      simp only [Expander.expandNode, Expander.expandStep,
        Option.some.injEq] at h
      subst h; exact ⟨rfl, rfl⟩

/-- On a tree with no component-typed assignment, any completed Expander
run is the identity. -/
theorem expand_noComp_id (comps : List (String × Node)) :
    ∀ (fuel : Nat) (t t' : Node), WF.noCompAssign comps t = true →
      Expander.expandNode comps fuel t = some t' → t' = t := by
  intro fuel
  induction fuel with
  | zero => intro t t' _ h; simp [Expander.expandNode] at h
  | succ fuel ih =>
    intro t t' ht h
    cases t with
    | assignment i t0 ch =>
      simp only [WF.noCompAssign, Bool.and_eq_true] at ht
      have hl : dlookup t0 comps = none := by
        have h1 := ht.1
        cases hb : dmem t0 comps with
        | false => exact (dmem_false_iff t0 comps).mp hb
        | true => rw [hb] at h1; simp at h1
      simp only [Expander.expandNode, Expander.expandStep, hl,
        Option.some.injEq] at h
      exact h.symm
    | block ns args ch =>
      simp only [Expander.expandNode, Expander.expandStep,
        Option.map_eq_some'] at h
      obtain ⟨ch', hch, hout⟩ := h
      simp only [WF.noCompAssign] at ht
      rw [noCompAssignList_eq_all] at ht
      have := mapVisit_eq_self (Expander.expandNode comps fuel) ch ch'
        (fun n hn n' hv => ih n n' (List.all_eq_true.mp ht n hn) hv) hch
      rw [← hout, this]
    | component nm a ch =>
      simp only [Expander.expandNode, Expander.expandStep,
        Option.map_eq_some'] at h
      obtain ⟨ch', hch, hout⟩ := h
      simp only [WF.noCompAssign] at ht
      rw [noCompAssignList_eq_all] at ht
      have := mapVisit_eq_self (Expander.expandNode comps fuel) ch ch'
        (fun n hn n' hv => ih n n' (List.all_eq_true.mp ht n hn) hv) hch
      rw [← hout, this]
    | link o i =>
      simp only [WF.noCompAssign, Bool.and_eq_true] at ht
      simp only [Expander.expandNode, Expander.expandStep,
        Option.bind_eq_bind, Option.bind_eq_some, Option.pure_def,
        Option.some.injEq] at h
      obtain ⟨o', ho, i', hi, hout⟩ := h
      rw [← hout, ih o o' ht.1 ho, ih i i' ht.2 hi]
    | constant k v =>
      simp only [Expander.expandNode, Expander.expandStep,
        Option.map_eq_some'] at h
      obtain ⟨v', hv, hout⟩ := h
      simp only [WF.noCompAssign] at ht
      rw [← hout, ih v v' ht hv]
    | namedArg a v =>
      simp only [Expander.expandNode, Expander.expandStep,
        Option.map_eq_some'] at h
      obtain ⟨v', hv, hout⟩ := h
      simp only [WF.noCompAssign] at ht
      rw [← hout, ih v v' ht hv]
    | implicitPort v =>
      simp only [Expander.expandNode, Expander.expandStep,
        Option.map_eq_some'] at h
      obtain ⟨v', hv, hout⟩ := h
      simp only [WF.noCompAssign] at ht
      rw [← hout, ih v v' ht hv]
    | idRef s =>
      simp only [Expander.expandNode, Expander.expandStep,
        Option.some.injEq] at h
      exact h.symm
    | pval v =>
      simp only [Expander.expandNode, Expander.expandStep,
        Option.some.injEq] at h
      exact h.symm
    | port k a p =>
      simp only [Expander.expandNode, Expander.expandStep,
        Option.some.injEq] at h
      exact h.symm

/-- C9 (confirmed): once an Expander pass over a hygienic tree completes
(completion stands in for "no self-referential components" in the fuel
embedding: on a self-referential map no run ever completes, see C5), no
Assignment in the result carries an `actor_type` that is a key of the
component map, and a second Expander invocation on the result changes
nothing. -/
theorem claim_C9 (comps : List (String × Node)) (fuel f : Nat) (t t' : Node)
    (hc : comps.all (fun p => WF.argsClean p.2) = true)
    (ht : WF.argsClean t = true)
    (h1 : Expander.expandNode comps fuel t = some t') :
    WF.noCompAssign comps t' = true ∧
    (∀ t'', Expander.expandNode comps f t' = some t'' → t'' = t') := by
  have r := expand_clean comps hc fuel t t' ht h1
  exact ⟨r.1, fun t'' h2 => expand_noComp_id comps f t' t'' r.1 h2⟩

/-- Closed witness for C9: the acyclic component script, expanded with
budget 10; the result has no component-typed assignment and re-expanding it
returns it unchanged. -/
theorem claim_C9_witness :
    WF.noCompAssign [("D", Ex.dComp)]
      (.block none [] [Ex.dComp,
        .block (some "a") [] [.assignment "i" "std.Identity" []]]) = true ∧
    Expander.expandNode [("D", Ex.dComp)] 10
      (.block none [] [Ex.dComp,
        .block (some "a") [] [.assignment "i" "std.Identity" []]]) =
      some (.block none [] [Ex.dComp,
        .block (some "a") [] [.assignment "i" "std.Identity" []]]) := by
  have r := claim_C9 [("D", Ex.dComp)] 10 10 Ex.rootAcyclic
    (.block none [] [Ex.dComp,
      .block (some "a") [] [.assignment "i" "std.Identity" []]])
    (by rfl) (by rfl) (by rfl)
  exact ⟨r.1, rfl⟩

theorem wfVal_noAssign (v : Node) (h : WF.wfVal v = true) :
    WF.noAssign v = true := by
  cases v <;> first | rfl | simp [WF.wfVal] at h

theorem wfEnd_noAssign (e : Node) (h : WF.wfEnd e = true) :
    WF.noAssign e = true := by
  cases e <;> simp [WF.wfEnd] at h
  case port => rfl
  case implicitPort v => simpa [WF.noAssign] using wfVal_noAssign v h

theorem wfVal_noImpl (v : Node) (h : WF.wfVal v = true) :
    WF.noImpl v = true := by
  cases v <;> first | rfl | simp [WF.wfVal] at h

theorem wfVal_cleanNode (v : Node) (h : WF.wfVal v = true) :
    WF.cleanNode v = true := by
  cases v <;> first | rfl | simp [WF.wfVal] at h

/-- Values recorded from an assignment's NamedArgs into a block's `args`. -/
theorem argsOf_vals (P : Node → Bool) (ch : List Node)
    (h : ∀ c ∈ ch, (match c with | Node.namedArg _ v => P v | _ => true) = true) :
    (Expander.argsOf ch).all (fun p => P p.2) = true := by
  have gen : ∀ (l : List Node) (m : List (String × Node)),
      (∀ c ∈ l, (match c with | Node.namedArg _ v => P v | _ => true) = true) →
      m.all (fun p => P p.2) = true →
      (l.foldl (fun m c =>
        match c with
        | Node.namedArg a v => dinsert a v m
        | _ => m) m).all (fun p => P p.2) = true := by
    intro l
    induction l with
    | nil => intro m _ hm; simpa using hm
    | cons c rest ih =>
      intro m hl hm
      cases c with
      | namedArg a v =>
        have hv : P v = true := by
          simpa using hl (Node.namedArg a v) (by simp)
        exact ih (dinsert a v m) (fun x hx => hl x (by simp [hx]))
          (dinsert_all P a v m hm hv)
      | block ns args chb =>
        exact ih m (fun x hx => hl x (by simp [hx])) hm
      | component nm an chc =>
        exact ih m (fun x hx => hl x (by simp [hx])) hm
      | assignment i t cha =>
        exact ih m (fun x hx => hl x (by simp [hx])) hm
      | idRef s => exact ih m (fun x hx => hl x (by simp [hx])) hm
      | pval v => exact ih m (fun x hx => hl x (by simp [hx])) hm
      | constant k v => exact ih m (fun x hx => hl x (by simp [hx])) hm
      | link o i => exact ih m (fun x hx => hl x (by simp [hx])) hm
      | port k a p => exact ih m (fun x hx => hl x (by simp [hx])) hm
      | implicitPort v => exact ih m (fun x hx => hl x (by simp [hx])) hm
  exact gen ch [] h rfl

/-- A visited block stays a block with the same namespace and args. -/
theorem expand_block_shape (comps : List (String × Node)) (fuel : Nat)
    (ns : Option String) (args : List (String × Node)) (ch : List Node)
    (t' : Node) (h : Expander.expandNode comps fuel (.block ns args ch) = some t') :
    ∃ ch', t' = .block ns args ch' := by
  cases fuel with
  | zero => simp [Expander.expandNode] at h
  | succ f =>
    simp only [Expander.expandNode, Expander.expandStep,
      Option.map_eq_some'] at h
    obtain ⟨ch', _, hout⟩ := h
    exact ⟨ch', hout.symm⟩

/-- The Expander preserves the parser shape: items stay items, component
definitions stay component definitions (with their bodies expanded). -/
theorem expand_wf (comps : List (String × Node))
    (hcomps : ∀ t0 c, dlookup t0 comps = some c → WF.wfComp c = true) :
    ∀ (fuel : Nat) (t t' : Node), Expander.expandNode comps fuel t = some t' →
      (WF.wfItem t = true → WF.wfItem t' = true) ∧
      (WF.wfComp t = true → WF.wfComp t' = true) := by
  intro fuel
  induction fuel with
  | zero => intro t t' h; simp [Expander.expandNode] at h
  | succ fuel ih =>
    intro t t' h
    cases t with
    | assignment i t0 ch =>
      refine ⟨?_, fun hcf => by simp [WF.wfComp] at hcf⟩
      intro hit
      simp only [Expander.expandNode, Expander.expandStep] at h
      cases hl : dlookup t0 comps with
      | none =>
        rw [hl] at h
        simp only [Option.some.injEq] at h
        subst h
        exact hit
      | some comp =>
        rw [hl] at h
        have hcomp := hcomps t0 comp hl
        cases comp
        case component nm an chc =>
          cases chc with
          | nil => simp at h
          | cons b rest =>
            cases b
            case block bns bargs bch =>
              cases rest with
              | cons x xs => simp [WF.wfComp] at hcomp
              | nil =>
                have hbch : WF.wfItems bch = true := by
                  simp only [WF.wfComp, WF.wfItem, Bool.and_eq_true] at hcomp
                  exact hcomp.2
                have hargs : (Expander.argsOf ch).all
                    (fun p => WF.wfVal p.2) = true := by
                  apply argsOf_vals
                  intro c hc
                  simp only [WF.wfItem] at hit
                  have := List.all_eq_true.mp hit c hc
                  cases c <;> simp_all [WF.wfNamedArg]
                have hb : WF.wfItem
                    (.block (some i) (Expander.argsOf ch) bch) = true := by
                  simp only [WF.wfItem, Bool.and_eq_true]
                  exact ⟨hargs, hbch⟩
                exact (ih _ t' h).1 hb
            all_goals simp [WF.wfComp] at hcomp
        all_goals simp [WF.wfComp] at hcomp
    | block ns args ch =>
      refine ⟨?_, fun hcf => by simp [WF.wfComp] at hcf⟩
      intro hit
      simp only [Expander.expandNode, Expander.expandStep,
        Option.map_eq_some'] at h
      obtain ⟨ch', hch, hout⟩ := h
      subst hout
      simp only [WF.wfItem, Bool.and_eq_true] at hit ⊢
      refine ⟨hit.1, ?_⟩
      rw [wfItems_eq_all] at hit ⊢
      exact mapVisit_all (Expander.expandNode comps fuel) WF.wfItem WF.wfItem
        (fun n n' hp hv => (ih n n' hv).1 hp) ch ch' hit.2 hch
    | component nm a ch =>
      refine ⟨fun hif => by simp [WF.wfItem] at hif, ?_⟩
      intro hcf
      simp only [Expander.expandNode, Expander.expandStep,
        Option.map_eq_some'] at h
      obtain ⟨ch', hch, hout⟩ := h
      subst hout
      cases ch with
      | nil => exact Bool.noConfusion hcf
      | cons b rest =>
        cases rest with
        | cons x xs =>
          cases b
          all_goals exact Bool.noConfusion hcf
        | nil =>
          cases b
          case block bns bargs bch =>
            have hcf2 : WF.wfItem (.block bns bargs bch) = true := hcf
            cases hv : Expander.expandNode comps fuel (.block bns bargs bch) with
            | none => simp [Expander.mapVisit, hv] at hch
            | some b' =>
              have hrest : Expander.mapVisit (Expander.expandNode comps fuel)
                  [] = some [] := rfl
              simp only [Expander.mapVisit, hv, hrest, Option.bind_eq_bind,
                Option.some_bind, Option.pure_def, Option.some.injEq] at hch
              subst hch
              have hb' := (ih _ b' hv).1 hcf2
              obtain ⟨bch', hbout⟩ :=
                expand_block_shape comps fuel bns bargs bch b' hv
              subst hbout
              exact hb'
          all_goals exact Bool.noConfusion hcf
    | link o i =>
      refine ⟨?_, fun hcf => by simp [WF.wfComp] at hcf⟩
      intro hit
      simp only [WF.wfItem, Bool.and_eq_true] at hit
      simp only [Expander.expandNode, Expander.expandStep,
        Option.bind_eq_bind, Option.bind_eq_some, Option.pure_def,
        Option.some.injEq] at h
      obtain ⟨o', ho, i', hi, hout⟩ := h
      have ho' := expand_noAssign_id comps fuel o o' (wfEnd_noAssign o hit.1) ho
      have hi' := expand_noAssign_id comps fuel i i' (wfEnd_noAssign i hit.2) hi
      rw [← hout, ho', hi']
      simp [WF.wfItem, hit.1, hit.2]
    | constant k v =>
      refine ⟨?_, fun hcf => by simp [WF.wfComp] at hcf⟩
      intro hit
      simp only [Expander.expandNode, Expander.expandStep,
        Option.map_eq_some'] at h
      obtain ⟨v', hv, hout⟩ := h
      have hwv : WF.wfVal v = true := by
        simp only [WF.wfItem] at hit
        cases v <;> first | rfl | simp at hit
      have := expand_noAssign_id comps fuel v v' (wfVal_noAssign v hwv) hv
      rw [← hout, this]
      exact hit
    | namedArg a v =>
      exact ⟨fun hif => by simp [WF.wfItem] at hif,
        fun hcf => by simp [WF.wfComp] at hcf⟩
    | implicitPort v =>
      exact ⟨fun hif => by simp [WF.wfItem] at hif,
        fun hcf => by simp [WF.wfComp] at hcf⟩
    | idRef s =>
      exact ⟨fun hif => by simp [WF.wfItem] at hif,
        fun hcf => by simp [WF.wfComp] at hcf⟩
    | pval v =>
      exact ⟨fun hif => by simp [WF.wfItem] at hif,
        fun hcf => by simp [WF.wfComp] at hcf⟩
    | port k a p =>
      exact ⟨fun hif => by simp [WF.wfItem] at hif,
        fun hcf => by simp [WF.wfComp] at hcf⟩

theorem namedArgs_noImplList (ch : List Node)
    (h : ch.all WF.wfNamedArg = true) : WF.noImplList ch = true := by
  rw [noImplList_eq_all, List.all_eq_true]
  intro c hc
  have := List.all_eq_true.mp h c hc
  cases c <;> simp [WF.wfNamedArg] at this
  case namedArg a v =>
    simpa [WF.noImpl] using wfVal_noImpl v this

/-- One rewritten Link end: a port, no implicit port left, and the
synthesized assignments are well-shaped and implicit-free. -/
theorem all_and_split (P R : Node → Bool) (l : List Node)
    (h : l.all (fun n => P n && R n) = true) :
    l.all P = true ∧ l.all R = true := by
  constructor <;>
    · rw [List.all_eq_true]
      intro x hx
      have hq := List.all_eq_true.mp h x hx
      simp only [Bool.and_eq_true] at hq
      first | exact hq.1 | exact hq.2

/-- One rewritten Link end: a port, no implicit port left, and the
synthesized assignments are well-shaped and implicit-free. -/
theorem rewriteEnd_wf (c : Nat) (e : Node) (h : WF.wfEnd e = true) :
    (WF.isPort (ImplicitPortRewrite.rewriteEnd c e).1 = true ∧
     WF.noImpl (ImplicitPortRewrite.rewriteEnd c e).1 = true) ∧
    (ImplicitPortRewrite.rewriteEnd c e).2.1.all
      (fun n => WF.wfItem n && WF.noImpl n) = true := by
  cases e <;> simp [WF.wfEnd] at h
  case port k a p =>
    simp [ImplicitPortRewrite.rewriteEnd, WF.isPort, WF.noImpl]
  case implicitPort v =>
    refine ⟨⟨rfl, rfl⟩, ?_⟩
    have hni := wfVal_noImpl v h
    simp only [ImplicitPortRewrite.rewriteEnd, List.all_cons, List.all_nil,
      Bool.and_eq_true, WF.wfItem, WF.wfNamedArg, WF.noImpl, WF.noImplList]
    exact ⟨⟨⟨h, rfl, trivial⟩, hni, trivial, trivial⟩, trivial⟩

mutual
/-- The implicit-port rewrite of a block yields a block whose subtree is
well-shaped and free of ImplicitPort nodes. -/
theorem rewrite_wf_block :
    ∀ (c : Nat) (ns : Option String) (args : List (String × Node))
      (ch : List Node),
      (args.all fun p => WF.wfVal p.2) = true → WF.wfItems ch = true →
      WF.wfItem (ImplicitPortRewrite.rewriteNode c (.block ns args ch)).1 = true ∧
      WF.noImpl (ImplicitPortRewrite.rewriteNode c (.block ns args ch)).1 = true
  | c, ns, args, ch, hargs, h => by
    have hr := rewrite_wf_children c ch h
    have hall : ((ImplicitPortRewrite.rewriteBlockChildren c ch).1 ++
        (ImplicitPortRewrite.rewriteBlockChildren c ch).2.1).all
        (fun n => WF.wfItem n && WF.noImpl n) = true := by
      rw [List.all_append]
      simp [hr.1, hr.2]
    obtain ⟨hwf, hni⟩ := all_and_split WF.wfItem WF.noImpl _ hall
    simp only [ImplicitPortRewrite.rewriteNode, WF.wfItem, WF.noImpl,
      Bool.and_eq_true]
    rw [wfItems_eq_all, noImplList_eq_all]
    exact ⟨⟨hargs, hwf⟩, hni⟩

/-- The rewritten children of a block plus the assignments appended to it:
all well-shaped items, none containing an ImplicitPort. -/
theorem rewrite_wf_children :
    ∀ (c : Nat) (l : List Node), WF.wfItems l = true →
      (ImplicitPortRewrite.rewriteBlockChildren c l).1.all
        (fun n => WF.wfItem n && WF.noImpl n) = true ∧
      (ImplicitPortRewrite.rewriteBlockChildren c l).2.1.all
        (fun n => WF.wfItem n && WF.noImpl n) = true
  | c, [], _ => by
    simp [ImplicitPortRewrite.rewriteBlockChildren]
  | c, n :: rest, h => by
    have hn : WF.wfItem n = true ∧ WF.wfItems rest = true := by
      simpa [WF.wfItems, Bool.and_eq_true] using h
    have hrest := hn.2
    have hitem := hn.1
    cases n <;> simp only [WF.wfItem] at hitem
    all_goals try exact Bool.noConfusion hitem
    case link o i =>
      have ho : WF.wfEnd o = true := by
        have := hitem; simp [Bool.and_eq_true] at this; exact this.1
      have hi : WF.wfEnd i = true := by
        have := hitem; simp [Bool.and_eq_true] at this; exact this.2
      have ro := rewriteEnd_wf c o ho
      have ri := rewriteEnd_wf (ImplicitPortRewrite.rewriteEnd c o).2.2.2 i hi
      have rr := rewrite_wf_children
        (ImplicitPortRewrite.rewriteEnd
          (ImplicitPortRewrite.rewriteEnd c o).2.2.2 i).2.2.2 rest hrest
      have hpo : WF.wfEnd (ImplicitPortRewrite.rewriteEnd c o).1 = true := by
        cases hp : (ImplicitPortRewrite.rewriteEnd c o).1 <;>
          rw [hp] at ro <;> first | rfl | simp [WF.isPort] at ro
      have hpi : WF.wfEnd (ImplicitPortRewrite.rewriteEnd
          (ImplicitPortRewrite.rewriteEnd c o).2.2.2 i).1 = true := by
        cases hp : (ImplicitPortRewrite.rewriteEnd
            (ImplicitPortRewrite.rewriteEnd c o).2.2.2 i).1 <;>
          rw [hp] at ri <;> first | rfl | simp [WF.isPort] at ri
      simp only [ImplicitPortRewrite.rewriteBlockChildren, List.all_cons,
        List.all_append, Bool.and_eq_true]
      refine ⟨⟨?_, rr.1⟩, ⟨ro.2, ri.2⟩, rr.2⟩
      simp only [WF.wfItem, WF.noImpl, Bool.and_eq_true]
      exact ⟨⟨hpo, hpi⟩, ro.1.2, ri.1.2⟩
    case assignment i t cha =>
      have hrw := rewriteList_namedArgs c cha hitem
      have rr := rewrite_wf_children c rest hrest
      simp only [ImplicitPortRewrite.rewriteBlockChildren,
        ImplicitPortRewrite.rewriteNode, hrw, List.all_cons, Bool.and_eq_true]
      refine ⟨⟨?_, rr.1⟩, rr.2⟩
      simp only [WF.wfItem, WF.noImpl, Bool.and_eq_true]
      exact ⟨hitem, by
        have := namedArgs_noImplList cha hitem
        simpa [noImplList_eq_all] using this⟩
    case constant k v =>
      cases v <;> simp at hitem
      case pval pv =>
        have hrw := rewrite_wfVal c (.pval pv) rfl
        have rr := rewrite_wf_children c rest hrest
        simp only [ImplicitPortRewrite.rewriteBlockChildren,
          ImplicitPortRewrite.rewriteNode, hrw, List.all_cons,
          Bool.and_eq_true]
        refine ⟨⟨?_, rr.1⟩, rr.2⟩
        simp [WF.wfItem, WF.noImpl]
    case block ns' args' ch' =>
      have hargs : (args'.all fun p => WF.wfVal p.2) = true := by
        have := hitem; simp only [Bool.and_eq_true] at this; exact this.1
      have hch' : WF.wfItems ch' = true := by
        have := hitem; simp only [Bool.and_eq_true] at this; exact this.2
      have rb := rewrite_wf_block c ns' args' ch' hargs hch'
      have rr := rewrite_wf_children
        (ImplicitPortRewrite.rewriteNode c (.block ns' args' ch')).2.2 rest hrest
      simp only [ImplicitPortRewrite.rewriteBlockChildren, List.all_cons,
        Bool.and_eq_true]
      exact ⟨⟨by simp [rb.1, rb.2], rr.1⟩, rr.2⟩
end


theorem substNamedArg_wf (bargs consts : List (String × Node)) (n : Node)
    (hn : WF.wfNamedArg n = true) (hb : WF.valsWf bargs = true)
    (hc : WF.valsWf consts = true) :
    WF.wfNamedArg (Flatten.substNamedArg bargs consts n).1 = true := by
  cases n <;> simp [WF.wfNamedArg] at hn
  case namedArg a v =>
    cases v <;> simp [WF.wfVal] at hn
    case idRef key =>
      simp only [Flatten.substNamedArg]
      cases hl : dlookup key bargs with
      | some r =>
        have hr := dlookup_of_all WF.wfVal key r bargs hb hl
        simpa [WF.wfNamedArg] using hr
      | none =>
        cases hl2 : dlookup key consts with
        | some r =>
          have hr := dlookup_of_all WF.wfVal key r consts hc hl2
          simpa [WF.wfNamedArg] using hr
        | none => simp [WF.wfNamedArg, WF.wfVal]
    case pval pv =>
      simp [Flatten.substNamedArg, WF.wfNamedArg, WF.wfVal]

theorem flattenArgs_wf (bargs consts : List (String × Node)) :
    ∀ ch : List Node, ch.all WF.wfNamedArg = true →
      WF.valsWf bargs = true → WF.valsWf consts = true →
      (Flatten.flattenArgs bargs consts ch).1.all WF.wfNamedArg = true := by
  intro ch
  induction ch with
  | nil => intro _ _ _; rfl
  | cons n rest ih =>
    intro h hb hc
    simp only [List.all_cons, Bool.and_eq_true] at h
    simp only [Flatten.flattenArgs, List.all_cons, Bool.and_eq_true]
    exact ⟨substNamedArg_wf bargs consts n h.1 hb hc, ih h.2 hb hc⟩

theorem resolveBlockArgs_wf (pargs : List (String × Node)) :
    ∀ args : List (String × Node), WF.valsWf pargs = true →
      WF.valsWf args = true →
      WF.valsWf (Flatten.resolveBlockArgs pargs args).1 = true := by
  intro args
  induction args with
  | nil => intro _ _; rfl
  | cons p rest ih =>
    intro hp ha
    obtain ⟨k, v⟩ := p
    simp only [WF.valsWf, List.all_cons, Bool.and_eq_true] at ha
    have hv := ha.1
    have hrest := ih hp ha.2
    cases v with
    | idRef pk =>
      simp only [Flatten.resolveBlockArgs]
      cases hl : dlookup pk pargs with
      | some r =>
        have hr := dlookup_of_all WF.wfVal pk r pargs hp hl
        simp only [WF.valsWf, List.all_cons, Bool.and_eq_true]
        exact ⟨hr, hrest⟩
      | none =>
        simp only [WF.valsWf, List.all_cons, Bool.and_eq_true]
        exact ⟨by simp [WF.wfVal], hrest⟩
    | pval pv =>
      simp only [Flatten.resolveBlockArgs, WF.valsWf, List.all_cons,
        Bool.and_eq_true]
      exact ⟨rfl, hrest⟩
    | block ns args' ch' =>
      simp [WF.wfVal] at hv
    | component nm an ch' => simp [WF.wfVal] at hv
    | assignment i t ch' => simp [WF.wfVal] at hv
    | namedArg a v' => simp [WF.wfVal] at hv
    | constant k' v' => simp [WF.wfVal] at hv
    | link o i => simp [WF.wfVal] at hv
    | port pk' a pn => simp [WF.wfVal] at hv
    | implicitPort v' => simp [WF.wfVal] at hv

mutual
/-- Flattening a well-shaped implicit-free item yields flat output items
and keeps the constants map literal-valued. -/
theorem flatten_wf_node :
    ∀ (stack : List String) (bargs consts : List (String × Node)) (n : Node),
      WF.wfItem n = true → WF.noImpl n = true →
      WF.valsWf bargs = true → WF.valsWf consts = true →
      (Flatten.flattenNode stack bargs consts n).1.all WF.flatOut = true ∧
      WF.valsWf (Flatten.flattenNode stack bargs consts n).2.1 = true
  | stack, bargs, consts, .constant k v, hit, hni, hb, hc => by
    cases v
    case pval pv =>
      simp only [Flatten.flattenNode, List.all_cons, List.all_nil,
        Bool.and_eq_true]
      refine ⟨⟨rfl, trivial⟩, ?_⟩
      exact dinsert_all WF.wfVal k (.pval pv) consts hc rfl
    all_goals exact Bool.noConfusion hit
  | stack, bargs, consts, .assignment i t ch, hit, hni, hb, hc => by
    simp only [Flatten.flattenNode, List.all_cons, List.all_nil,
      Bool.and_eq_true]
    refine ⟨⟨?_, trivial⟩, hc⟩
    simp only [WF.flatOut]
    exact flattenArgs_wf bargs consts ch hit hb hc
  | stack, bargs, consts, .link o i, hit, hni, hb, hc => by
    have ho : WF.wfEnd o = true ∧ WF.wfEnd i = true := by
      simpa [WF.wfItem, Bool.and_eq_true] using hit
    have hno : WF.noImpl o = true ∧ WF.noImpl i = true := by
      simpa [WF.noImpl, Bool.and_eq_true] using hni
    have hpo : WF.isPort o = true := by
      cases o <;> simp [WF.wfEnd] at ho <;> first | rfl |
        (exact absurd hno.1 (by simp [WF.noImpl]))
    have hpi : WF.isPort i = true := by
      cases i <;> simp [WF.wfEnd] at ho <;> first | rfl |
        (exact absurd hno.2 (by simp [WF.noImpl]))
    simp only [Flatten.flattenNode, List.all_cons, List.all_nil,
      Bool.and_eq_true]
    refine ⟨⟨?_, trivial⟩, hc⟩
    cases o <;> simp [WF.isPort] at hpo
    cases i <;> simp [WF.isPort] at hpi
    simp [Flatten.flattenEnd, WF.flatOut, WF.isPort]
  | stack, bargs, consts, .block ns args ch, hit, hni, hb, hc => by
    have hargs : WF.valsWf args = true := by
      have := hit; simp only [WF.wfItem, Bool.and_eq_true] at this
      exact this.1
    have hch : WF.wfItems ch = true := by
      have := hit; simp only [WF.wfItem, Bool.and_eq_true] at this
      exact this.2
    have hnch : WF.noImplList ch = true := hni
    have hra := resolveBlockArgs_wf bargs args hb hargs
    have hr := flatten_wf_list (stack ++ ns.toList)
      (Flatten.resolveBlockArgs bargs args).1 consts ch hch hnch hra hc
    simpa only [Flatten.flattenNode] using hr
  | stack, bargs, consts, .component nm a ch, hit, hni, hb, hc =>
    absurd hit (by simp [WF.wfItem])
  | stack, bargs, consts, .namedArg a v, hit, hni, hb, hc =>
    absurd hit (by simp [WF.wfItem])
  | stack, bargs, consts, .idRef s, hit, hni, hb, hc =>
    absurd hit (by simp [WF.wfItem])
  | stack, bargs, consts, .pval v, hit, hni, hb, hc =>
    absurd hit (by simp [WF.wfItem])
  | stack, bargs, consts, .port k a p, hit, hni, hb, hc =>
    absurd hit (by simp [WF.wfItem])
  | stack, bargs, consts, .implicitPort v, hit, hni, hb, hc =>
    absurd hit (by simp [WF.wfItem])

theorem flatten_wf_list :
    ∀ (stack : List String) (bargs consts : List (String × Node))
      (l : List Node), WF.wfItems l = true → WF.noImplList l = true →
      WF.valsWf bargs = true → WF.valsWf consts = true →
      (Flatten.flattenList stack bargs consts l).1.all WF.flatOut = true ∧
      WF.valsWf (Flatten.flattenList stack bargs consts l).2.1 = true
  | stack, bargs, consts, [], _, _, _, hc => ⟨rfl, hc⟩
  | stack, bargs, consts, n :: rest, h, hn, hb, hc => by
    have h1 : WF.wfItem n = true ∧ WF.wfItems rest = true := by
      simpa [WF.wfItems, Bool.and_eq_true] using h
    have h2 : WF.noImpl n = true ∧ WF.noImplList rest = true := by
      simpa [WF.noImplList, Bool.and_eq_true] using hn
    have r1 := flatten_wf_node stack bargs consts n h1.1 h2.1 hb hc
    have r2 := flatten_wf_list stack bargs
      (Flatten.flattenNode stack bargs consts n).2.1 rest h1.2 h2.2 hb r1.2
    simp only [Flatten.flattenList, List.all_append, Bool.and_eq_true]
    exact ⟨⟨r1.1, r2.1⟩, r2.2⟩
end

theorem splice_out_flat (ch : List Node) (hch : ch.all WF.flatOut = true)
    (t : Option String × String × Nat) :
    (PortMap.spliceInternalOut ch t).all WF.flatOut = true := by
  simp only [PortMap.spliceInternalOut]
  cases hg : ch.get? t.2.2 with
  | none => exact hch
  | some x =>
    have hx : WF.flatOut x = true :=
      List.all_eq_true.mp hch x (List.get?_mem hg)
    cases x <;> try exact hch
    case link o srcInp =>
      have hsrc : WF.isPort srcInp = true := by
        simp only [WF.flatOut, Bool.and_eq_true] at hx
        exact hx.2
      rw [List.all_eq_true]
      intro y hy
      obtain ⟨z, hz, hzy⟩ := List.mem_map.mp hy
      have hzf : WF.flatOut z = true := List.all_eq_true.mp hch z hz
      cases z <;> simp only at hzy <;> rw [← hzy] <;> try exact hzf
      case link o' i' =>
        by_cases hm : (PortMap.endMatches .inP t.1 t.2.1 o' ||
            PortMap.endMatches .inP t.1 t.2.1 i') = true
        · simp only [hm, if_true]
          simp only [WF.flatOut, Bool.and_eq_true] at hzf ⊢
          exact ⟨hzf.1, hsrc⟩
        · simp only [Bool.not_eq_true] at hm
          simp only [hm, if_false]
          exact hzf

theorem splice_in_flat (ch : List Node) (hch : ch.all WF.flatOut = true)
    (t : Option String × String × Nat) :
    (PortMap.spliceInternalIn ch t).all WF.flatOut = true := by
  simp only [PortMap.spliceInternalIn]
  cases hg : ch.get? t.2.2 with
  | none => exact hch
  | some x =>
    have hx : WF.flatOut x = true :=
      List.all_eq_true.mp hch x (List.get?_mem hg)
    cases x <;> try exact hch
    case link srcOutp i0 =>
      have hsrc : WF.isPort srcOutp = true := by
        simp only [WF.flatOut, Bool.and_eq_true] at hx
        exact hx.1
      rw [List.all_eq_true]
      intro y hy
      obtain ⟨z, hz, hzy⟩ := List.mem_map.mp hy
      have hzf : WF.flatOut z = true := List.all_eq_true.mp hch z hz
      cases z <;> simp only at hzy <;> rw [← hzy] <;> try exact hzf
      case link o' i' =>
        by_cases hm : (PortMap.endMatches .outP t.1 t.2.1 o' ||
            PortMap.endMatches .outP t.1 t.2.1 i') = true
        · simp only [hm, if_true]
          simp only [WF.flatOut, Bool.and_eq_true] at hzf ⊢
          exact ⟨hsrc, hzf.2⟩
        · simp only [Bool.not_eq_true] at hm
          simp only [hm, if_false]
          exact hzf

theorem foldl_splice_out_flat :
    ∀ (ts : List (Option String × String × Nat)) (ch : List Node),
      ch.all WF.flatOut = true →
      (ts.foldl PortMap.spliceInternalOut ch).all WF.flatOut = true := by
  intro ts
  induction ts with
  | nil => intro ch h; exact h
  | cons t rest ih =>
    intro ch h
    exact ih (PortMap.spliceInternalOut ch t) (splice_out_flat ch h t)

theorem foldl_splice_in_flat :
    ∀ (ts : List (Option String × String × Nat)) (ch : List Node),
      ch.all WF.flatOut = true →
      (ts.foldl PortMap.spliceInternalIn ch).all WF.flatOut = true := by
  intro ts
  induction ts with
  | nil => intro ch h; exact h
  | cons t rest ih =>
    intro ch h
    exact ih (PortMap.spliceInternalIn ch t) (splice_in_flat ch h t)

/-- After resolution every surviving child is flat and holds no internal
port. -/
theorem resolve_flat (ch : List Node) (h : ch.all WF.flatOut = true) :
    (PortMap.resolve ch).all
      (fun c => WF.flatOut c && !PortMap.linkHasInternal c) = true := by
  have h1 := foldl_splice_out_flat (PortMap.collectEnds .internalOut ch) ch h
  have h2 := foldl_splice_in_flat
    (PortMap.collectEnds .internalIn
      ((PortMap.collectEnds .internalOut ch).foldl PortMap.spliceInternalOut ch))
    _ h1
  rw [List.all_eq_true]
  intro c hc
  simp only [PortMap.resolve] at hc
  have hmem := List.mem_filter.mp hc
  simp only [Bool.and_eq_true]
  constructor
  · exact List.all_eq_true.mp h2 c hmem.1
  · exact hmem.2

theorem namedArgs_clean (ch : List Node) (h : ch.all WF.wfNamedArg = true) :
    WF.cleanList ch = true := by
  rw [cleanList_eq_all, List.all_eq_true]
  intro c hc
  have := List.all_eq_true.mp h c hc
  cases c <;> simp [WF.wfNamedArg] at this
  case namedArg a v =>
    simpa [WF.cleanNode] using wfVal_cleanNode v this

/-- A flat child with no internal port-markers contains none of the
forbidden kinds. -/
theorem flat_clean (c : Node) (hf : WF.flatOut c = true)
    (hni : PortMap.linkHasInternal c = false) :
    WF.flatKind c = true ∧ WF.cleanNode c = true := by
  cases c <;> simp [WF.flatOut] at hf
  case assignment i t ch =>
    refine ⟨rfl, ?_⟩
    have hall : ch.all WF.wfNamedArg = true := by
      rw [List.all_eq_true]; exact hf
    simpa [WF.cleanNode] using namedArgs_clean ch hall
  case link o i =>
    refine ⟨rfl, ?_⟩
    simp only [PortMap.linkHasInternal, Bool.or_eq_false_iff] at hni
    cases o <;> simp [WF.isPort] at hf
    cases i <;> simp [WF.isPort] at hf
    case port ko ao po ki ai pi =>
      have ho := hni.1
      have hi := hni.2
      cases ko <;> cases ki <;>
        simp only [PortMap.isInternal] at ho hi <;>
        first | rfl | exact Bool.noConfusion ho | exact Bool.noConfusion hi
  case constant k v =>
    cases v <;> simp at hf
    exact ⟨rfl, rfl⟩

theorem wfComp_isComponent (c : Node) (h : WF.wfComp c = true) :
    CodeGen.isComponent c = true := by
  cases c <;> first | rfl | exact Bool.noConfusion h

/-- Component-map values collected from a parser-shaped root are
well-shaped component definitions. -/
theorem collect_wf (ch : List Node)
    (h : ch.all (fun c => WF.wfItem c || WF.wfComp c) = true) :
    ∀ t0 c, dlookup t0 (CodeGen.collectComponents (.block none [] ch)) = some c →
      WF.wfComp c = true := by
  intro t0 c hl
  have hfa := find_all_depth1_block CodeGen.isComponent none [] ch rfl
  have hvals : ∀ (l : List Node) (m : List (String × Node)),
      (∀ n ∈ l, WF.wfComp n = true) →
      m.all (fun p => WF.wfComp p.2) = true →
      (l.foldl (fun m c =>
        match c with
        | Node.component n _ _ => dinsert n c m
        | _ => m) m).all (fun p => WF.wfComp p.2) = true := by
    intro l
    induction l with
    | nil => intro m _ hm; exact hm
    | cons x rest ih =>
      intro m hl' hm
      cases x <;>
        first
          | exact ih m (fun n hn => hl' n (by simp [hn])) hm
          | skip
      case component nm an chc =>
        exact ih (dinsert nm (.component nm an chc) m)
          (fun n hn => hl' n (by simp [hn]))
          (dinsert_all WF.wfComp nm (.component nm an chc) m hm
            (hl' (.component nm an chc) (by simp)))
  have hcomps : ∀ n ∈ ch.filter CodeGen.isComponent, WF.wfComp n = true := by
    intro n hn
    have hmem := List.mem_filter.mp hn
    have hor := List.all_eq_true.mp h n hmem.1
    simp only [Bool.or_eq_true] at hor
    cases hor with
    | inr hc => exact hc
    | inl hi =>
      exfalso
      cases n <;>
        first
          | exact Bool.noConfusion hmem.2
          | exact Bool.noConfusion hi
  have hall := hvals (ch.filter CodeGen.isComponent) [] hcomps rfl
  rw [show CodeGen.collectComponents (.block none [] ch) =
    ((ch.filter CodeGen.isComponent).foldl (fun m c =>
        match c with
        | Node.component n _ _ => dinsert n c m
        | _ => m) []) from by
      simp [CodeGen.collectComponents, hfa]] at hl
  exact dlookup_of_all WF.wfComp t0 c _ hall hl

theorem filter_items (ch : List Node)
    (h : ch.all (fun c => WF.wfItem c || WF.wfComp c) = true) :
    (ch.filter (fun c => !CodeGen.isComponent c)).all WF.wfItem = true := by
  rw [List.all_eq_true]
  intro c hc
  have hmem := List.mem_filter.mp hc
  have hor := List.all_eq_true.mp h c hmem.1
  simp only [Bool.or_eq_true] at hor
  cases hor with
  | inl hi => exact hi
  | inr hcc =>
    exfalso
    have := wfComp_isComponent c hcc
    rw [this] at hmem
    simp at hmem

/-- C7 counterexample (closed): a parser-shaped script with a constant
declaration; after the full pipeline the root block's children still hold
the Constant node (Flatten records but never removes it), so "children are
only Assignments and Links" is false. -/
theorem claim_C7_counterexample :
    WF.wfTop Ex.rootConst = true ∧
    CodeGen.pipeline 10 Ex.rootConst =
      some (.block none []
        [.constant "K" (.pval (.int 5)),
         .assignment "a" "std.Identity" [.namedArg "p" (.pval (.int 5))]],
        []) ∧
    WF.assignOrLink (.constant "K" (.pval (.int 5))) = false :=
  ⟨rfl, rfl, rfl⟩

/-- C7 as amended (corrected): for a parser-shaped root, whenever the
pipeline completes, the root block survives as the root of the result, its
children are only Assignments, Links and Constants (Constant declarations
are left in place by Flatten — the claim's "only Assignments and Links"
fails on scripts with constants), and no node of kind Component, Block
(except the root), ImplicitPort, InternalInPort or InternalOutPort occurs
anywhere in the result. -/
theorem claim_C7 (fuel : Nat) (root out : Node) (w : List String)
    (hwf : WF.wfTop root = true)
    (h : CodeGen.pipeline fuel root = some (out, w)) :
    ∃ ch', out = .block none [] ch' ∧
      ∀ c ∈ ch', WF.flatKind c = true ∧ WF.cleanNode c = true := by
  cases root <;> try exact Bool.noConfusion hwf
  case block ns args ch =>
  cases ns <;> try exact Bool.noConfusion hwf
  case none =>
  cases args
  case cons => exact Bool.noConfusion hwf
  case nil =>
  have hall : ch.all (fun c => WF.wfItem c || WF.wfComp c) = true := hwf
  simp only [CodeGen.pipeline, Option.bind_eq_bind, Option.bind_eq_some] at h
  obtain ⟨root1, hexp, hrest⟩ := h
  cases fuel with
  | zero => simp [Expander.expandNode] at hexp
  | succ f =>
    have hcm := collect_wf ch hall
    simp only [Expander.expandNode, Expander.expandStep,
      Option.map_eq_some'] at hexp
    obtain ⟨ch1, hch1, hroot1⟩ := hexp
    subst hroot1
    have hch1all : ch1.all (fun c => WF.wfItem c || WF.wfComp c) = true := by
      refine mapVisit_all _ _ _ ?_ ch ch1 hall hch1
      intro n n' hp hv
      simp only [Bool.or_eq_true] at hp ⊢
      cases hp with
      | inl hi =>
        exact Or.inl ((expand_wf _ hcm f n n' hv).1 hi)
      | inr hc =>
        exact Or.inr ((expand_wf _ hcm f n n' hv).2 hc)
    have hch2 : (ch1.filter (fun c => !CodeGen.isComponent c)).all
        WF.wfItem = true := filter_items ch1 hch1all
    have hch2w : WF.wfItems (ch1.filter (fun c => !CodeGen.isComponent c)) =
        true := by
      rw [wfItems_eq_all]; exact hch2
    have hrw := rewrite_wf_children 0
      (ch1.filter (fun c => !CodeGen.isComponent c)) hch2w
    have hch3 : ((ImplicitPortRewrite.rewriteBlockChildren 0
        (ch1.filter (fun c => !CodeGen.isComponent c))).1 ++
        (ImplicitPortRewrite.rewriteBlockChildren 0
        (ch1.filter (fun c => !CodeGen.isComponent c))).2.1).all
        (fun n => WF.wfItem n && WF.noImpl n) = true := by
      rw [List.all_append]
      simp [hrw.1, hrw.2]
    obtain ⟨hch3w, hch3n⟩ := all_and_split WF.wfItem WF.noImpl _ hch3
    have hfl := flatten_wf_list [] [] []
      ((ImplicitPortRewrite.rewriteBlockChildren 0
        (ch1.filter (fun c => !CodeGen.isComponent c))).1 ++
        (ImplicitPortRewrite.rewriteBlockChildren 0
        (ch1.filter (fun c => !CodeGen.isComponent c))).2.1)
      (by rw [wfItems_eq_all]; exact hch3w)
      (by rw [noImplList_eq_all]; exact hch3n) rfl rfl
    have hres := resolve_flat _ hfl.1
    simp only [CodeGen.dropTopComponents, ImplicitPortRewrite.rewriteNode,
      Option.pure_def, Option.some.injEq, Prod.mk.injEq] at hrest
    obtain ⟨hout, hw⟩ := hrest
    refine ⟨_, hout.symm, ?_⟩
    intro c hc
    have hcq := List.all_eq_true.mp hres c hc
    simp only [Bool.and_eq_true, Bool.not_eq_true'] at hcq
    exact flat_clean c hcq.1 hcq.2

/-- Closed witness for C7 at the constant-bearing script. -/
theorem claim_C7_witness :
    WF.wfTop Ex.rootConst = true ∧
    ∃ ch', (Node.block none []
        [.constant "K" (.pval (.int 5)),
         .assignment "a" "std.Identity" [.namedArg "p" (.pval (.int 5))]]) =
        .block none [] ch' ∧
      ∀ c ∈ ch', WF.flatKind c = true ∧ WF.cleanNode c = true :=
  ⟨rfl, claim_C7 10 Ex.rootConst
    (.block none []
      [.constant "K" (.pval (.int 5)),
       .assignment "a" "std.Identity" [.namedArg "p" (.pval (.int 5))]])
    [] (by rfl) (by rfl)⟩

/-- C2 (confirmed, spec-modelled): `export_components` returns exactly the
top-level component definitions of the script — the `kind=Component,
maxdepth=1` query over the root block, i.e. its Component children, as they
stand in the script, with no expansion applied to them. -/
theorem claim_C2 (ns : Option String) (args : List (String × Node))
    (ch : List Node) :
    CodeGen.export_components (.block ns args ch) =
      (ch.filter CodeGen.isComponent, []) := by
  have h := find_all_depth1_block CodeGen.isComponent ns args ch rfl
  simp [CodeGen.export_components, h]

end CalvinCS
